import Mathlib

/-!
Verification of the CVV (Concise Version Vectors) replicated key-value store.

The definitions below are a shallow embedding of `src/cvv/vtypes.py` and
`src/cvv/replica.py`.  Python dictionaries are modelled as association lists
(first occurrence wins, as for a dictionary whose keys are unique); Python
sets of integers are modelled as `Finset Nat`; Python `None` becomes
`Option.none`.  Exceptions (including `assert` failures) are modelled by an
explicit error result paired with the state at the moment the exception is
raised: a Python exception does not roll back earlier mutations, so every
function returns `(Except Err α) × state`.
-/

/-- `Version` from vtypes.py: an identity `(replica_id, counter)`. -/
structure Version where
  replica_id : Nat
  counter : Nat
deriving DecidableEq

/-- `VersionVector` from vtypes.py: a map of replica ID to version counter,
modelled as an association list (a Python dict with unique keys). -/
structure VersionVector where
  v : List (Nat × Nat)
deriving DecidableEq

/-- First-occurrence lookup, the model of `self.v[id]` on a dict. -/
def VersionVector.find? (a : VersionVector) (r : Nat) : Option Nat :=
  (a.v.find? (fun p => p.1 = r)).map (·.2)

/-- Lookup with absent keys reading as 0. -/
def VersionVector.get0 (a : VersionVector) (r : Nat) : Nat :=
  (a.find? r).getD 0

def VersionVector.keys (a : VersionVector) : List Nat := a.v.map (·.1)

/-- `VersionVector.empty()`. -/
def VersionVector.emptyb (a : VersionVector) : Bool := a.v.isEmpty

/-- `VersionVector.dominates`: for ids in the union of the key sets, the
left counter is at least the right counter (absent keys read as 0). -/
def VersionVector.dominates (a b : VersionVector) : Bool :=
  (a.keys ++ b.keys).all (fun r => decide (b.get0 r ≤ a.get0 r))

/-- `VersionVector.dominates_version`. -/
def VersionVector.dominates_version (a : VersionVector) (ver : Version) : Bool :=
  decide (ver.counter ≤ a.get0 ver.replica_id)

/-- Raise the entry for `r` to at least `c`, at its first occurrence;
append `(r, c)` at the end when `r` is absent (a new dict entry). -/
def VersionVector.bumpFirst : List (Nat × Nat) → Nat → Nat → List (Nat × Nat)
  | [], r, c => [(r, c)]
  | (k, x) :: rest, r, c =>
    if k = r then (k, max x c) :: rest else (k, x) :: VersionVector.bumpFirst rest r c

/-- `VersionVector.update_version`: merge one version, keeping the maximum. -/
def VersionVector.update_version (a : VersionVector) (ver : Version) : VersionVector :=
  ⟨VersionVector.bumpFirst a.v ver.replica_id ver.counter⟩

/-- `VersionVector.update`: pointwise-maximum merge, iterating the other
vector's entries as the Python `for replica_id, c in other.v.items()` loop. -/
def VersionVector.update (a b : VersionVector) : VersionVector :=
  b.v.foldl (fun acc p => acc.update_version ⟨p.1, p.2⟩) a

/-- `VersionVector.get_version`. -/
def VersionVector.get_version (a : VersionVector) (r : Nat) : Version :=
  ⟨r, a.get0 r⟩

/-- Python dict equality `self.v == other.v`, the meaning of
`VersionVector.__eq__`: same key set with the same values, where an explicit
zero entry is distinct from an absent entry. -/
def VersionVector.eqb (a b : VersionVector) : Bool :=
  (a.keys ++ b.keys).all (fun r => decide (a.find? r = b.find? r))

/-- Set-equality of two version vectors read as total functions (absent
entries read as 0).  This follows the specification's words "set-equal as
VVs"; it is the candidate meaning of the dependency comparison in
`_local_update`, to be compared against the dict equality the code uses. -/
def VersionVector.setEq (a b : VersionVector) : Bool :=
  a.dominates b && b.dominates a

/-- `VersionSetElement` from vtypes.py: a contiguous prefix `[0, prefix_max]`
plus a sparse set of extra versions above it. -/
structure VersionSetElement where
  prefix_max : Nat
  extras : Finset Nat
deriving DecidableEq

/-- The loop body of `VersionSetElement._merge_extras`, with explicit fuel
so that the recursion is structural (each iteration removes one element of
`extras`, so any fuel larger than `extras.card` behaves like the Python
`while` loop). -/
def mergeExtrasGo : Nat → Nat → Finset Nat → Nat × Finset Nat
  | 0, pm, extras => (pm, extras)
  | fuel + 1, pm, extras =>
    if pm + 1 ∈ extras then mergeExtrasGo fuel (pm + 1) (extras.erase (pm + 1))
    else (pm, extras)

/-- `VersionSetElement._merge_extras`: absorb `prefix_max + 1` from the
extras into the prefix, cascading. -/
def mergeExtrasFun (pm : Nat) (extras : Finset Nat) : Nat × Finset Nat :=
  mergeExtrasGo (extras.card + 1) pm extras

/-- `VersionSetElement.insert`. -/
def VersionSetElement.insert (e : VersionSetElement) (version : Nat) : VersionSetElement :=
  if version ≤ e.prefix_max then e
  else if version = e.prefix_max + 1 then
    let p := mergeExtrasFun version (e.extras.erase version)
    ⟨p.1, p.2⟩
  else ⟨e.prefix_max, Insert.insert version e.extras⟩

/-- `VersionSetElement.update_prefix_upper_bound`. -/
def VersionSetElement.update_prefix_upper_bound (e : VersionSetElement) (version : Nat) :
    VersionSetElement :=
  if e.prefix_max < version then
    let p := mergeExtrasFun version (e.extras.filter (fun x => version < x))
    ⟨p.1, p.2⟩
  else e

/-- `VersionSetElement.insert_extras`. -/
def VersionSetElement.insert_extras (e : VersionSetElement) (xs : Finset Nat) :
    VersionSetElement :=
  let p := mergeExtrasFun e.prefix_max ((e.extras ∪ xs).filter (fun x => e.prefix_max < x))
  ⟨p.1, p.2⟩

/-- `VersionSet` from vtypes.py: a map of replica ID to `VersionSetElement`. -/
structure VersionSet where
  v : List (Nat × VersionSetElement)
deriving DecidableEq

def VersionSet.findElem? (S : VersionSet) (r : Nat) : Option VersionSetElement :=
  (S.v.find? (fun p => p.1 = r)).map (·.2)

/-- The element for `r`, defaulting to a fresh `VersionSetElement()`. -/
def VersionSet.elem0 (S : VersionSet) (r : Nat) : VersionSetElement :=
  (S.findElem? r).getD ⟨0, ∅⟩

/-- Store an element for `r`, replacing the first occurrence or appending a
new entry: the model of `_get_element` followed by mutation of the element. -/
def VersionSet.setElemList : List (Nat × VersionSetElement) → Nat → VersionSetElement →
    List (Nat × VersionSetElement)
  | [], r, e => [(r, e)]
  | (k, x) :: rest, r, e =>
    if k = r then (k, e) :: rest else (k, x) :: VersionSet.setElemList rest r e

def VersionSet.setElem (S : VersionSet) (r : Nat) (e : VersionSetElement) : VersionSet :=
  ⟨VersionSet.setElemList S.v r e⟩

def VersionSet.emptyb (S : VersionSet) : Bool := S.v.isEmpty

/-- `VersionSet.get_version`: the version in the greatest contiguous prefix. -/
def VersionSet.get_version (S : VersionSet) (r : Nat) : Version :=
  match S.findElem? r with
  | some e => ⟨r, e.prefix_max⟩
  | none => ⟨r, 0⟩

/-- The iteration of `get_gcp`: `result.update_version(Version(r, pm))` for
every entry with a positive prefix. -/
def gcpAux : List (Nat × VersionSetElement) → VersionVector → VersionVector
  | [], acc => acc
  | (r, e) :: rest, acc =>
    gcpAux rest (if 0 < e.prefix_max then acc.update_version ⟨r, e.prefix_max⟩ else acc)

/-- `VersionSet.get_gcp`: the greatest contiguous prefix as a version vector. -/
def VersionSet.get_gcp (S : VersionSet) : VersionVector :=
  gcpAux S.v ⟨[]⟩

/-- `VersionSet.dominates_vv`. -/
def VersionSet.dominates_vv (S : VersionSet) (vv : VersionVector) : Bool :=
  S.get_gcp.dominates vv

/-- `VersionSet.has_version`. -/
def VersionSet.has_version (S : VersionSet) (ver : Version) : Bool :=
  match S.findElem? ver.replica_id with
  | none => decide (ver.counter = 0)
  | some e => decide (ver.counter ≤ e.prefix_max) || decide (ver.counter ∈ e.extras)

/-- `VersionSet.insert_version`. -/
def VersionSet.insert_version (S : VersionSet) (ver : Version) : VersionSet :=
  S.setElem ver.replica_id ((S.elem0 ver.replica_id).insert ver.counter)

/-- `VersionSet.merge`. -/
def VersionSet.merge (S T : VersionSet) : VersionSet :=
  T.v.foldl (fun acc p =>
    acc.setElem p.1
      (((acc.elem0 p.1).update_prefix_upper_bound p.2.prefix_max).insert_extras p.2.extras)) S

/-- `VersionSet.merge_one_version`. -/
def VersionSet.merge_one_version (S : VersionSet) (ver : Version) : VersionSet :=
  S.setElem ver.replica_id ((S.elem0 ver.replica_id).update_prefix_upper_bound ver.counter)

/-! ## The replica (replica.py) -/

/-- `ObjectVersion`: a `none` value is a tombstone; a `none` timestamp has
been elided. -/
structure ObjectVersion where
  version : Version
  timestamp : Option VersionVector
  value : Option Nat
deriving DecidableEq

/-- `ObjectRecord`: the per-key history of sibling versions. -/
structure ObjectRecord where
  versions : List ObjectVersion
deriving DecidableEq

/-- `ReadTuple`. -/
structure ReadTuple where
  dependent_versions : VersionVector
  values : List (Option Nat)
deriving DecidableEq

/-- The five message types of replica.py. -/
inductive Msg where
  | update (key : Nat) (obj_ver : ObjectVersion)
  | syncRequest (cookie : Nat) (requestor_knowledge : VersionSet)
  | syncResponseSetup (cookie : Nat) (server_knowledge : VersionSet)
      (server_visible : VersionVector)
  | syncResponseData (cookie : Nat) (key : Nat) (obj_ver : ObjectVersion)
  | syncResponseComplete (cookie : Nat)
deriving DecidableEq

/-- The exceptions that can escape replica.py code, with `assertionError`
standing for a failed Python `assert`. -/
inductive Err where
  | assertionError
  | valueError
  | concurrentUpdate
  | duplicateKey
  | noSuchKey
deriving DecidableEq

instance {ε α : Type} [DecidableEq ε] [DecidableEq α] : DecidableEq (Except ε α) := fun x y =>
  match x, y with
  | .ok a, .ok b =>
    if h : a = b then isTrue (by rw [h]) else isFalse (by simp [h])
  | .error a, .error b =>
    if h : a = b then isTrue (by rw [h]) else isFalse (by simp [h])
  | .ok _, .error _ => isFalse (by simp)
  | .error _, .ok _ => isFalse (by simp)

/-- Per-replica state.  `db` models the `SimDataStore` dictionary (the
store deep-copies on get/put, so records read from it are independent
values, which is automatic here). -/
structure Replica where
  replica_id : Nat
  db : List (Nat × ObjectRecord)
  knowledge : VersionSet
  visible : VersionVector
  committed_visible : VersionVector
  sync_in_progress : Bool
  sync_replica : Option Nat
  sync_cookie : Nat
  sync_replica_visible : Option VersionVector
  sync_replica_knowledge : Option VersionSet
deriving DecidableEq

/-- `SimDataStore.get` (the `deepcopy` is implicit in value semantics). -/
def dbGet (db : List (Nat × ObjectRecord)) (key : Nat) : Option ObjectRecord :=
  (db.find? (fun p => p.1 = key)).map (·.2)

/-- `SimDataStore.put`: assign at the first occurrence or append. -/
def dbPut : List (Nat × ObjectRecord) → Nat → ObjectRecord → List (Nat × ObjectRecord)
  | [], key, rec => [(key, rec)]
  | (k, x) :: rest, key, rec =>
    if k = key then (k, rec) :: rest else (k, x) :: dbPut rest key rec

/-- Step 1 of `_filter_visible_versions`: causal visibility with the
latching side effect on `visible`.  Walks the record's versions in order,
threading the (possibly advanced) visible vector; returns the visible
versions in order, or the assertion failure hit first, together with the
visible vector as latched so far. -/
def fvvStep1 (K : VersionSet) (committed : VersionVector) :
    List ObjectVersion → VersionVector → (Except Err (List ObjectVersion)) × VersionVector
  | [], vis => (.ok [], vis)
  | ov :: rest, vis =>
    if vis.dominates_version ov.version then
      match fvvStep1 K committed rest vis with
      | (.ok l, vis2) => (.ok (ov :: l), vis2)
      | (.error e, vis2) => (.error e, vis2)
    else if committed.dominates_version ov.version then (.error .assertionError, vis)
    else
      match ov.timestamp with
      | none => (.error .assertionError, vis)
      | some ts =>
        if K.dominates_vv ts then
          match fvvStep1 K committed rest (vis.update ts) with
          | (.ok l, vis2) => (.ok (ov :: l), vis2)
          | (.error e, vis2) => (.error e, vis2)
        else fvvStep1 K committed rest vis

/-- The inner `j` loop of the supersession pass, sweeping the entries after
the current outer element `ovi`.  Returns the updated tail and whether `ovi`
itself was superseded (in which case the Python loop breaks, leaving the
rest of the tail untouched). -/
def fvvSuperInner (ovi : ObjectVersion) :
    List (Option ObjectVersion) → Except Err (List (Option ObjectVersion) × Bool)
  | [] => .ok ([], false)
  | none :: rest =>
    match fvvSuperInner ovi rest with
    | .error e => .error e
    | .ok p => .ok (none :: p.1, p.2)
  | some ovj :: rest =>
    match ovi.timestamp with
    | none => .error .assertionError
    | some tsi =>
      match ovj.timestamp with
      | none => .error .assertionError
      | some tsj =>
        if tsi.dominates_version ovj.version then
          match fvvSuperInner ovi rest with
          | .error e => .error e
          | .ok p => .ok (none :: p.1, p.2)
        else if tsj.dominates_version ovi.version then .ok (some ovj :: rest, true)
        else
          match fvvSuperInner ovi rest with
          | .error e => .error e
          | .ok p => .ok (some ovj :: p.1, p.2)

theorem fvvSuperInner_length {ovi : ObjectVersion} {l l' : List (Option ObjectVersion)}
    {d : Bool} (h : fvvSuperInner ovi l = .ok (l', d)) : l'.length = l.length := by
  induction l generalizing l' d with
  | nil =>
    simp only [fvvSuperInner, Except.ok.injEq, Prod.mk.injEq] at h
    obtain ⟨rfl, rfl⟩ := h
    rfl
  | cons x rest ih =>
    cases x with
    | none =>
      simp only [fvvSuperInner] at h
      split at h
      · cases h
      · next p heq =>
        simp only [Except.ok.injEq, Prod.mk.injEq] at h
        obtain ⟨rfl, rfl⟩ := h
        simp [ih heq]
    | some ovj =>
      simp only [fvvSuperInner] at h
      split at h
      · cases h
      · split at h
        · cases h
        · split at h
          · split at h
            · cases h
            · next p heq =>
              simp only [Except.ok.injEq, Prod.mk.injEq] at h
              obtain ⟨rfl, rfl⟩ := h
              simp [ih heq]
          · split at h
            · simp only [Except.ok.injEq, Prod.mk.injEq] at h
              obtain ⟨rfl, rfl⟩ := h
              rfl
            · split at h
              · cases h
              · next p heq =>
                simp only [Except.ok.injEq, Prod.mk.injEq] at h
                obtain ⟨rfl, rfl⟩ := h
                simp [ih heq]

/-- The outer `i` loop of the supersession pass, with explicit fuel so the
recursion is structural.  The inner sweep preserves the list length
(`fvvSuperInner_length`), so each outer step shortens the list by one and
any fuel at least the list length behaves like the Python loop. -/
def fvvSuperOuterGo : Nat → List (Option ObjectVersion) →
    Except Err (List (Option ObjectVersion))
  | _, [] => .ok []
  | 0, _ :: _ => .ok []
  | fuel + 1, none :: rest =>
    match fvvSuperOuterGo fuel rest with
    | .error e => .error e
    | .ok r => .ok (none :: r)
  | fuel + 1, some ovi :: rest =>
    match fvvSuperInner ovi rest with
    | .error e => .error e
    | .ok p =>
      match fvvSuperOuterGo fuel p.1 with
      | .error e => .error e
      | .ok r => .ok ((if p.2 then none else some ovi) :: r)

/-- The outer `i` loop of the supersession pass. -/
def fvvSuperOuter (l : List (Option ObjectVersion)) :
    Except Err (List (Option ObjectVersion)) :=
  fvvSuperOuterGo l.length l

/-- The final aggregation loop of `_filter_visible_versions`: collect
surviving values and build the dependent version vector, asserting that no
two survivors share a replica id. -/
def fvvStep3 : List (Option ObjectVersion) → VersionVector →
    Except Err (VersionVector × List (Option Nat))
  | [], vv => .ok (vv, [])
  | none :: rest, vv => fvvStep3 rest vv
  | some ov :: rest, vv =>
    if (vv.get_version ov.version.replica_id).counter = 0 then do
      let p ← fvvStep3 rest (vv.update_version ov.version)
      .ok (p.1, ov.value :: p.2)
    else .error .assertionError

/-- The result of `_filter_visible_versions`: the dependent version vector
and the surviving values. -/
structure FilterOut where
  vv : VersionVector
  values : List (Option Nat)
deriving DecidableEq

/-- `Replica._filter_visible_versions`, as a function of the pieces of state
it reads, returning the result (or the assertion failure) together with the
visible vector after latching. -/
def filter_visible_versions (K : VersionSet) (vis committed : VersionVector)
    (rec : ObjectRecord) : (Except Err FilterOut) × VersionVector :=
  if ¬ (K.dominates_vv vis) then (.error .assertionError, vis)
  else if ¬ (vis.dominates committed) then (.error .assertionError, vis)
  else
    match fvvStep1 K committed rec.versions vis with
    | (.error e, vis2) => (.error e, vis2)
    | (.ok visList, vis2) =>
      match fvvSuperOuter (visList.map some) with
      | .error e => (.error e, vis2)
      | .ok marked =>
        match fvvStep3 marked ⟨[]⟩ with
        | .error e => (.error e, vis2)
        | .ok (vv, vals) => (.ok ⟨vv, vals⟩, vis2)

/-- `discard_timestamp_for_replacement_vv` from replica.py. -/
def discard_timestamp_for_replacement_vv (rec : ObjectRecord) (vv : VersionVector) :
    ObjectRecord :=
  match rec.versions with
  | [ov] => if vv.dominates_version ov.version then ⟨[{ ov with timestamp := none }]⟩ else rec
  | _ => rec

/-- `Replica._insert_object`. -/
def Replica.insert_object (s : Replica) (rec : ObjectRecord) (key : Nat)
    (obj_ver : ObjectVersion) : (Except Err Unit) × Replica :=
  if s.knowledge.has_version obj_ver.version then (.error .assertionError, s)
  else
    match obj_ver.timestamp with
    | none => (.error .assertionError, s)
    | some ts =>
      let restored := rec.versions.map (fun ov =>
        match ov.timestamp with
        | none => { ov with timestamp := some s.committed_visible }
        | some _ => ov)
      let versions2 := restored ++ [obj_ver]
      let s1 := { s with knowledge := s.knowledge.insert_version obj_ver.version }
      let s2 := if s1.knowledge.dominates_vv ts
                then { s1 with visible := s1.visible.update ts } else s1
      match filter_visible_versions s2.knowledge s2.visible s2.committed_visible ⟨versions2⟩ with
      | (.error e, vis3) => (.error e, { s2 with visible := vis3 })
      | (.ok out, vis3) =>
        let s3 := { s2 with visible := vis3 }
        let kept := versions2.filter (fun ov2 =>
          decide (ov2.version = out.vv.get_version ov2.version.replica_id) ||
          ! s3.visible.dominates_version ov2.version)
        if kept.isEmpty then (.error .assertionError, s3)
        else
          let finalRec := discard_timestamp_for_replacement_vv ⟨kept⟩ s3.visible
          (.ok (), { s3 with db := dbPut s3.db key finalRec,
                             committed_visible := s3.committed_visible.update s3.visible })

/-- `Replica._local_update`.  The broadcast of the `UpdateMessage` has no
effect on the replica state and is omitted. -/
def Replica.local_update (s : Replica) (rec : ObjectRecord) (key : Nat)
    (value : Option Nat) (dependent_versions : VersionVector) :
    (Except Err Version) × Replica :=
  match filter_visible_versions s.knowledge s.visible s.committed_visible rec with
  | (.error e, vis2) => (.error e, { s with visible := vis2 })
  | (.ok out, vis2) =>
    let s1 := { s with visible := vis2 }
    if ¬ (s1.visible.dominates dependent_versions) then (.error .valueError, s1)
    else if ¬ (VersionVector.eqb out.vv dependent_versions) then (.error .concurrentUpdate, s1)
    else if ¬ (s1.knowledge.dominates_vv s1.visible) then (.error .assertionError, s1)
    else if ¬ (s1.knowledge.get_version s1.replica_id = s1.visible.get_version s1.replica_id)
      then (.error .assertionError, s1)
    else if ¬ (s1.visible.dominates s1.committed_visible) then (.error .assertionError, s1)
    else if ¬ (s1.visible.get_version s1.replica_id =
               s1.committed_visible.get_version s1.replica_id)
      then (.error .assertionError, s1)
    else
      let ver : Version := ⟨s1.replica_id, (s1.knowledge.get_version s1.replica_id).counter + 1⟩
      let ts := s1.visible.update_version ver
      let obj_ver : ObjectVersion := ⟨ver, some ts, value⟩
      match s1.insert_object rec key obj_ver with
      | (.error e, s2) => (.error e, s2)
      | (.ok _, s2) =>
        if ¬ (s2.committed_visible.dominates ts) then (.error .assertionError, s2)
        else (.ok ver, s2)

/-- `Replica.read`. -/
def Replica.read (s : Replica) (key : Nat) : (Except Err ReadTuple) × Replica :=
  match dbGet s.db key with
  | none => (.ok ⟨⟨[]⟩, []⟩, s)
  | some rec =>
    match filter_visible_versions s.knowledge s.visible s.committed_visible rec with
    | (.error e, vis2) => (.error e, { s with visible := vis2 })
    | (.ok out, vis2) =>
      let s2 := { s with visible := vis2 }
      if out.values.any (fun v => v.isSome) then (.ok ⟨out.vv, out.values⟩, s2)
      else (.ok ⟨⟨[]⟩, []⟩, s2)

/-- `Replica.create`. -/
def Replica.create (s : Replica) (key : Nat) (value : Nat) :
    (Except Err Version) × Replica :=
  match dbGet s.db key with
  | some rec =>
    match filter_visible_versions s.knowledge s.visible s.committed_visible rec with
    | (.error e, vis2) => (.error e, { s with visible := vis2 })
    | (.ok out, vis2) =>
      let s1 := { s with visible := vis2 }
      if out.values.any (fun v => v.isSome) then (.error .duplicateKey, s1)
      else s1.local_update rec key (some value) out.vv
  | none => s.local_update ⟨[]⟩ key (some value) ⟨[]⟩

/-- `Replica.update`. -/
def Replica.update (s : Replica) (key : Nat) (value : Nat)
    (dependent_versions : VersionVector) : (Except Err Version) × Replica :=
  match dbGet s.db key with
  | none => (.error .noSuchKey, s)
  | some rec => s.local_update rec key (some value) dependent_versions

/-- `Replica.delete`. -/
def Replica.delete (s : Replica) (key : Nat) (dependent_versions : VersionVector) :
    (Except Err Unit) × Replica :=
  match dbGet s.db key with
  | none => (.ok (), s)
  | some rec =>
    match s.local_update rec key none dependent_versions with
    | (.error e, s2) => (.error e, s2)
    | (.ok _, s2) => (.ok (), s2)

/-- `Replica.request_sync`.  The random 32-bit cookie is a parameter; the
second component is the list of `(destination, message)` pairs sent. -/
def Replica.request_sync (s : Replica) (sync_replica_id : Nat) (cookie : Nat) :
    Replica × List (Nat × Msg) :=
  if s.sync_in_progress then (s, [])
  else
    ({ s with sync_replica := some sync_replica_id, sync_cookie := cookie,
              sync_replica_visible := none, sync_replica_knowledge := none,
              sync_in_progress := true },
     [(sync_replica_id, .syncRequest cookie s.knowledge)])

/-- `Replica._process_sync_request` (the responder).  Returns the messages
sent to the requestor and the (unchanged) replica state.  The timestamp
elision is applied to the copy of each record obtained from the store. -/
def Replica.process_sync_request (s : Replica) (cookie : Nat)
    (requestor_knowledge : VersionSet) : (List Msg) × Replica :=
  let dataMsgs := (s.db.map (fun p =>
    let rec2 := discard_timestamp_for_replacement_vv p.2 s.committed_visible
    (rec2.versions.filter (fun ov => ! requestor_knowledge.has_version ov.version)).map
      (fun ov => Msg.syncResponseData cookie p.1 ov))).flatten
  ((Msg.syncResponseSetup cookie s.knowledge s.committed_visible :: dataMsgs)
     ++ [Msg.syncResponseComplete cookie], s)

/-- `Replica._process_sync_response_setup`. -/
def Replica.process_sync_response_setup (s : Replica) (sender_id cookie : Nat)
    (server_knowledge : VersionSet) (server_visible : VersionVector) :
    (Except Err Unit) × Replica :=
  if ¬ s.sync_in_progress then (.ok (), s)
  else if s.sync_replica ≠ some sender_id ∨ cookie ≠ s.sync_cookie then (.ok (), s)
  else if ¬ (server_knowledge.dominates_vv server_visible) then (.error .assertionError, s)
  else (.ok (), { s with sync_replica_knowledge := some server_knowledge,
                         sync_replica_visible := some server_visible })

/-- `Replica._process_sync_response_data`. -/
def Replica.process_sync_response_data (s : Replica) (sender_id cookie key : Nat)
    (obj_ver : ObjectVersion) : (Except Err Unit) × Replica :=
  if ¬ s.sync_in_progress then (.ok (), s)
  else if s.sync_replica ≠ some sender_id ∨ cookie ≠ s.sync_cookie then (.ok (), s)
  else if s.knowledge.has_version obj_ver.version then (.ok (), s)
  else
    match s.sync_replica_knowledge with
    | none => (.error .assertionError, s)
    | some _ =>
      match s.sync_replica_visible with
      | none => (.error .assertionError, s)
      | some srv =>
        let ov2 := match obj_ver.timestamp with
          | none => { obj_ver with timestamp := some srv }
          | some _ => obj_ver
        s.insert_object ((dbGet s.db key).getD ⟨[]⟩) key ov2

/-- `Replica._process_sync_response_complete`. -/
def Replica.process_sync_response_complete (s : Replica) (sender_id cookie : Nat) :
    (Except Err Unit) × Replica :=
  if ¬ s.sync_in_progress then (.ok (), s)
  else if s.sync_replica ≠ some sender_id ∨ cookie ≠ s.sync_cookie then (.ok (), s)
  else
    match s.sync_replica_knowledge with
    | none => (.error .assertionError, s)
    | some sk =>
      match s.sync_replica_visible with
      | none => (.error .assertionError, s)
      | some sv =>
        let s1 := { s with knowledge := s.knowledge.merge sk,
                           visible := s.visible.update sv }
        (.ok (), { s1 with committed_visible := s1.committed_visible.update s1.visible,
                           sync_in_progress := false,
                           sync_replica_knowledge := none,
                           sync_replica_visible := none })

/-- `Replica._process_update`. -/
def Replica.process_update (s : Replica) (key : Nat) (obj_ver : ObjectVersion) :
    (Except Err Unit) × Replica :=
  if s.knowledge.has_version obj_ver.version then (.ok (), s)
  else s.insert_object ((dbGet s.db key).getD ⟨[]⟩) key obj_ver

/-- `Replica.deliver_message`. -/
def Replica.deliver_message (s : Replica) (sender_id : Nat) (msg : Msg) :
    (Except Err Unit) × Replica :=
  match msg with
  | .update key ov => s.process_update key ov
  | .syncRequest cookie rk => (.ok (), (s.process_sync_request cookie rk).2)
  | .syncResponseSetup c sk sv => s.process_sync_response_setup sender_id c sk sv
  | .syncResponseData c k ov => s.process_sync_response_data sender_id c k ov
  | .syncResponseComplete c => s.process_sync_response_complete sender_id c

/-! ## Basic lemmas about the version metadata algebra -/

theorem mergeExtrasGo_pm_le (fuel pm : Nat) (ex : Finset Nat) :
    pm ≤ (mergeExtrasGo fuel pm ex).1 := by
  induction fuel generalizing pm ex with
  | zero => exact Nat.le_refl pm
  | succ f ih =>
    rw [mergeExtrasGo]
    split
    · exact Nat.le_of_succ_le (ih (pm + 1) _)
    · exact Nat.le_refl pm

theorem mergeExtrasFun_pm_le (pm : Nat) (ex : Finset Nat) : pm ≤ (mergeExtrasFun pm ex).1 :=
  mergeExtrasGo_pm_le _ _ _

theorem findElem?_setElem_self (S : VersionSet) (r : Nat) (e : VersionSetElement) :
    (S.setElem r e).findElem? r = some e := by
  unfold VersionSet.setElem VersionSet.findElem?
  induction S.v with
  | nil => simp [VersionSet.setElemList]
  | cons p rest ih =>
    obtain ⟨k, x⟩ := p
    by_cases hk : k = r
    · subst hk
      simp [VersionSet.setElemList]
    · simp only [VersionSet.setElemList, if_neg hk]
      rw [List.find?_cons_of_neg _ (by simpa using hk)]
      exact ih

theorem findElem?_setElem_ne (S : VersionSet) (r : Nat) (e : VersionSetElement)
    (x : Nat) (hx : x ≠ r) : (S.setElem r e).findElem? x = S.findElem? x := by
  unfold VersionSet.setElem VersionSet.findElem?
  induction S.v with
  | nil => simp [VersionSet.setElemList, Ne.symm hx]
  | cons p rest ih =>
    obtain ⟨k, y⟩ := p
    by_cases hk : k = r
    · subst hk
      rw [VersionSet.setElemList, if_pos rfl]
      rw [List.find?_cons_of_neg _ (by simpa using Ne.symm hx),
          List.find?_cons_of_neg _ (by simpa using Ne.symm hx)]
    · simp only [VersionSet.setElemList, if_neg hk]
      by_cases hkx : k = x
      · subst hkx
        rw [List.find?_cons_of_pos _ (by simp), List.find?_cons_of_pos _ (by simp)]
      · rw [List.find?_cons_of_neg _ (by simpa using hkx),
            List.find?_cons_of_neg _ (by simpa using hkx)]
        exact ih

/-- Inserting a version into a version set makes `has_version` true for it. -/
theorem has_version_insert_version (S : VersionSet) (ver : Version) :
    (S.insert_version ver).has_version ver = true := by
  unfold VersionSet.insert_version VersionSet.has_version
  rw [findElem?_setElem_self]
  set e := S.elem0 ver.replica_id with he
  unfold VersionSetElement.insert
  by_cases h1 : ver.counter ≤ e.prefix_max
  · simp [h1]
  · by_cases h2 : ver.counter = e.prefix_max + 1
    · simp only [if_neg h1, if_pos h2]
      have := mergeExtrasFun_pm_le ver.counter (e.extras.erase ver.counter)
      simp [this]
    · simp [if_neg h1, if_neg h2]

/-! ## C7: the sync responder makes no local state changes -/

/-- C7: processing a `SyncRequestMessage` leaves the responder's entire local
state (knowledge, visible, committed_visible, sync fields, and every stored
ObjectRecord) unchanged; the timestamp elision before transmission is
applied only to the copies of the records used to build the outgoing
messages, never to the store. -/
theorem sync_request_leaves_state_unchanged :
    (∀ (s : Replica) (cookie : Nat) (rk : VersionSet),
       (s.process_sync_request cookie rk).2 = s) ∧
    (∀ (s : Replica) (sender cookie : Nat) (rk : VersionSet),
       s.deliver_message sender (.syncRequest cookie rk) = (.ok (), s)) := by
  constructor
  · intro s cookie rk
    rfl
  · intro s sender cookie rk
    rfl

/-! ## C10: delete of an absent key is a validation-free no-op -/

/-- C10: for a key with no ObjectRecord, `delete` returns normally for any
`dependent_versions` whatsoever (no validation is performed) and leaves the
whole replica state unchanged. -/
theorem delete_absent_key_noop (s : Replica) (key : Nat) (dep : VersionVector)
    (h : dbGet s.db key = none) : s.delete key dep = (.ok (), s) := by
  unfold Replica.delete
  rw [h]

theorem delete_absent_key_noop_witness :
    dbGet (Replica.mk 0 [] ⟨[]⟩ ⟨[]⟩ ⟨[]⟩ false none 0 none none).db 5 = none ∧
    Replica.delete (Replica.mk 0 [] ⟨[]⟩ ⟨[]⟩ ⟨[]⟩ false none 0 none none) 5 ⟨[(3, 7)]⟩ =
      (.ok (), Replica.mk 0 [] ⟨[]⟩ ⟨[]⟩ ⟨[]⟩ false none 0 none none) :=
  ⟨rfl, delete_absent_key_noop _ 5 ⟨[(3, 7)]⟩ rfl⟩

/-! ## C2: idempotence of Update delivery -/

/-- After `_insert_object`, either nothing happened (an assertion failed
before any state change) or the delivered version has been inserted into
`knowledge`; no later step of the function touches `knowledge`. -/
theorem insert_object_state (s : Replica) (rec : ObjectRecord) (key : Nat)
    (ov : ObjectVersion) :
    (s.insert_object rec key ov).2 = s ∨
    (s.insert_object rec key ov).2.knowledge = s.knowledge.insert_version ov.version := by
  unfold Replica.insert_object
  split
  · left; rfl
  · split
    · left; rfl
    · right
      dsimp only
      split
      · split <;> rfl
      · split
        · split <;> rfl
        · split <;> rfl

/-- C2: delivering the same `UpdateMessage` twice leaves the replica in the
same state as delivering it once — the second delivery is a no-op because
`knowledge` already contains the message's version (and when the first
delivery fails before inserting the version, the replica is unchanged and
the second delivery fails identically). -/
theorem update_delivery_idempotent (s : Replica) (sender key : Nat) (ov : ObjectVersion) :
    ((s.deliver_message sender (.update key ov)).2.deliver_message sender
        (.update key ov)).2 =
      (s.deliver_message sender (.update key ov)).2 := by
  show ((s.process_update key ov).2.process_update key ov).2 = (s.process_update key ov).2
  have hstep : ∀ t : Replica, t.knowledge.has_version ov.version = true →
      t.process_update key ov = (.ok (), t) := by
    intro t ht
    unfold Replica.process_update
    rw [if_pos ht]
  by_cases h : s.knowledge.has_version ov.version = true
  · rw [hstep s h]
    dsimp only
    rw [hstep s h]
  · have hpu : s.process_update key ov =
        s.insert_object ((dbGet s.db key).getD ⟨[]⟩) key ov := by
      unfold Replica.process_update
      rw [if_neg h]
    rcases insert_object_state s ((dbGet s.db key).getD ⟨[]⟩) key ov with heq | hk
    · rw [← hpu] at heq
      rw [heq]
      exact heq
    · rw [← hpu] at hk
      have h2 : (s.process_update key ov).2.knowledge.has_version ov.version = true := by
        rw [hk]
        exact has_version_insert_version s.knowledge ov.version
      rw [hstep _ h2]

/-! ## The cross-field invariant of the specification (section 3) -/

/-- The three cross-field conjuncts the specification requires at every
public entry/exit: `knowledge.dominates_vv(visible)`,
`visible.dominates(committed_visible)`, and all three agreeing on the
replica's own counter. -/
def Inv3 (s : Replica) : Prop :=
  s.knowledge.dominates_vv s.visible = true ∧
  s.visible.dominates s.committed_visible = true ∧
  (s.knowledge.get_version s.replica_id).counter = s.visible.get0 s.replica_id ∧
  s.visible.get0 s.replica_id = s.committed_visible.get0 s.replica_id

instance (s : Replica) : Decidable (Inv3 s) := by
  unfold Inv3
  infer_instance

/-! ## C1 counterexample -/

/-- A pristine replica 0 about to receive an update message that carries a
version allegedly from replica 0 itself. -/
def c1State : Replica := ⟨0, [], ⟨[]⟩, ⟨[]⟩, ⟨[]⟩, false, none, 0, none, none⟩

def c1Msg : Msg := .update 0 ⟨⟨0, 1⟩, some ⟨[(0, 1), (1, 1)]⟩, some 7⟩

/-- C1 counterexample: `deliver_message` is a public Replica method, yet
delivering an `UpdateMessage` whose version carries the replica's own id
exits normally from a state satisfying all three invariant conjuncts into a
state where `knowledge` records counter 1 for the replica's own id while
`visible` and `committed_visible` still record 0. -/
theorem replica_invariant_broken_by_deliver :
    Inv3 c1State ∧
    (c1State.deliver_message 1 c1Msg).1 = .ok () ∧
    ¬ (((c1State.deliver_message 1 c1Msg).2.knowledge.get_version
          (c1State.deliver_message 1 c1Msg).2.replica_id).counter =
        (c1State.deliver_message 1 c1Msg).2.visible.get0
          (c1State.deliver_message 1 c1Msg).2.replica_id) := by
  refine ⟨by decide, by decide, by decide⟩

/-! ## C3 counterexample -/

/-- Replica 0 after one local write of key 3: knowledge, visible and
committed_visible all record `0:1`, and the record for key 3 holds that
single version. -/
def c3State : Replica :=
  ⟨0, [(3, ⟨[⟨⟨0, 1⟩, some ⟨[(0, 1)]⟩, some 5⟩]⟩)], ⟨[(0, ⟨1, ∅⟩)]⟩,
   ⟨[(0, 1)]⟩, ⟨[(0, 1)]⟩, false, none, 0, none, none⟩

/-- A dependency vector that is set-equal (as a version vector, absent
entries reading as 0) to the visible dependent set `0:1`, but carries an
explicit zero entry for replica 1. -/
def c3Dep : VersionVector := ⟨[(0, 1), (1, 0)]⟩

/-- C3 counterexample: the caller-supplied dependency vector is dominated by
`visible` (so no ValueError) and is set-equal as a version vector to the
recomputed visible dependent set, yet `update` raises
`ConcurrentUpdateException` instead of allocating a version: the comparison
in `_local_update` is Python dict equality, which distinguishes an explicit
zero entry from an absent one. -/
theorem local_update_set_equal_dep_still_rejected :
    c3State.visible.dominates c3Dep = true ∧
    VersionVector.setEq
      (match (filter_visible_versions c3State.knowledge c3State.visible
                c3State.committed_visible ⟨[⟨⟨0, 1⟩, some ⟨[(0, 1)]⟩, some 5⟩]⟩).1 with
       | .ok out => out.vv
       | .error _ => ⟨[]⟩) c3Dep = true ∧
    (c3State.update 3 7 c3Dep).1 = .error .concurrentUpdate := by
  refine ⟨by decide, by decide, by decide⟩

/-! ## C4 counterexample -/

/-- A record for key 7 whose three versions come from replicas 1, 3 and 2
(in that order).  At `c4State` the version from replica 3 is quarantined
(its timestamp mentions the unknown version `9:9`), the version from
replica 2 latches `3:1` into `visible`, and the surviving visible versions
are all tombstones. -/
def c4Rec : ObjectRecord :=
  ⟨[⟨⟨1, 1⟩, some ⟨[(1, 1), (2, 2)]⟩, none⟩,
    ⟨⟨3, 1⟩, some ⟨[(3, 1), (9, 9)]⟩, some 42⟩,
    ⟨⟨2, 2⟩, some ⟨[(2, 2), (3, 1)]⟩, none⟩]⟩

def c4State : Replica :=
  ⟨0, [(7, c4Rec)], ⟨[(1, ⟨1, ∅⟩), (2, ⟨2, ∅⟩), (3, ⟨1, ∅⟩)]⟩,
   ⟨[(1, 1)]⟩, ⟨[(1, 1)]⟩, false, none, 0, none, none⟩

/-- C4 counterexample: the record for key 7 exists and its surviving visible
versions are all tombstones (`read` accordingly returns an empty result),
yet the subsequent `create` does not succeed: the latching performed by the
first visibility pass makes the quarantined version `3:1` visible to the
second pass inside `_local_update`, whose recomputed dependent set then
differs from the one `create` captured, so `ConcurrentUpdateException` is
raised.  (It still does not raise `DuplicateKeyException`.) -/
theorem create_after_tombstones_can_fail :
    dbGet c4State.db 7 = some c4Rec ∧
    (filter_visible_versions c4State.knowledge c4State.visible
        c4State.committed_visible c4Rec).1 = .ok ⟨⟨[(1, 1)]⟩, [none]⟩ ∧
    (c4State.read 7).1 = .ok ⟨⟨[]⟩, []⟩ ∧
    (c4State.create 7 99).1 = .error .concurrentUpdate := by
  refine ⟨by decide, by decide, by decide, by decide⟩

/-! ## C8 counterexample -/

/-- Replica 0 with a sync in progress from replica 5 (cookie 42) whose
`SyncResponseSetupMessage` has not yet been processed. -/
def c8State : Replica := ⟨0, [], ⟨[]⟩, ⟨[]⟩, ⟨[]⟩, true, some 5, 42, none, none⟩

/-- C8 counterexample: a `SyncResponseDataMessage` whose sender and cookie
match the in-progress sync but which arrives before the setup message, and
whose version is not yet known, makes `deliver_message` raise an
AssertionError (`assert type(self.sync_replica_knowledge) is VersionSet`)
rather than being silently dropped. -/
theorem sync_data_before_setup_faults :
    c8State.deliver_message 5 (.syncResponseData 42 0 ⟨⟨5, 1⟩, some ⟨[]⟩, some 1⟩) =
      (.error .assertionError, c8State) := by
  decide

/-- C8 amended: in the before-setup state, a matching data message is
silently dropped only when its version is already in `knowledge`; otherwise
the handler faults on the internal assertion.  The state is unchanged in
both cases. -/
theorem sync_data_before_setup_cases (s : Replica) (sender cookie key : Nat)
    (ov : ObjectVersion) (h1 : s.sync_in_progress = true)
    (h2 : s.sync_replica = some sender) (h3 : s.sync_cookie = cookie)
    (h4 : s.sync_replica_knowledge = none) :
    s.deliver_message sender (.syncResponseData cookie key ov) =
      (if s.knowledge.has_version ov.version then (.ok (), s)
       else (.error .assertionError, s)) := by
  show s.process_sync_response_data sender cookie key ov = _
  unfold Replica.process_sync_response_data
  rw [h1, h2, h3, h4]
  simp

theorem sync_data_before_setup_cases_witness :
    c8State.sync_in_progress = true ∧ c8State.sync_replica = some 5 ∧
    c8State.sync_cookie = 42 ∧ c8State.sync_replica_knowledge = none ∧
    c8State.deliver_message 5 (.syncResponseData 42 0 ⟨⟨5, 2⟩, none, none⟩) =
      (if c8State.knowledge.has_version ⟨5, 2⟩ then (.ok (), c8State)
       else (.error .assertionError, c8State)) :=
  ⟨rfl, rfl, rfl, rfl,
   sync_data_before_setup_cases c8State 5 42 0 ⟨⟨5, 2⟩, none, none⟩ rfl rfl rfl rfl⟩

/-! ## C9 counterexample -/

/-- C9 counterexample: `delete` on an existing key whose dependency vector
does not match the visible dependent set raises
`ConcurrentUpdateException` — an error other than ValueError escaping to the
caller (as the method's own docstring documents, contrary to the
specification's `delete(key, dep_vv) -> () | ValueError`). -/
theorem delete_can_raise_concurrent_update :
    (c3State.delete 3 ⟨[]⟩).1 = .error .concurrentUpdate ∧
    c3State.visible.dominates ⟨[]⟩ = true := by
  refine ⟨by decide, by decide⟩


/-! ## Pointwise characterization of the version vector operations -/

@[simp] theorem VersionVector.find?_nil (r : Nat) :
    (VersionVector.mk []).find? r = none := rfl

theorem VersionVector.find?_cons (k x : Nat) (rest : List (Nat × Nat)) (r : Nat) :
    (VersionVector.mk ((k, x) :: rest)).find? r =
      if k = r then some x else (VersionVector.mk rest).find? r := by
  unfold VersionVector.find?
  by_cases h : k = r
  · rw [List.find?_cons_of_pos _ (by simpa using h), if_pos h]
    rfl
  · rw [List.find?_cons_of_neg _ (by simpa using h), if_neg h]

@[simp] theorem VersionVector.get0_nil (r : Nat) : (VersionVector.mk []).get0 r = 0 := rfl

theorem VersionVector.get0_cons (k x : Nat) (rest : List (Nat × Nat)) (r : Nat) :
    (VersionVector.mk ((k, x) :: rest)).get0 r =
      if k = r then x else (VersionVector.mk rest).get0 r := by
  unfold VersionVector.get0
  rw [VersionVector.find?_cons]
  by_cases h : k = r <;> simp [h]

theorem find?_eq_none_of_not_mem_keys (a : VersionVector) (r : Nat) (h : r ∉ a.keys) :
    a.find? r = none := by
  unfold VersionVector.find?
  rw [List.find?_eq_none.mpr]
  · rfl
  · intro p hp
    simp only [decide_eq_true_eq]
    intro hpr
    exact h (hpr ▸ List.mem_map_of_mem (·.1) hp)

theorem get0_eq_zero_of_not_mem_keys (a : VersionVector) (r : Nat) (h : r ∉ a.keys) :
    a.get0 r = 0 := by
  unfold VersionVector.get0
  rw [find?_eq_none_of_not_mem_keys a r h]
  rfl

/-- `update_version` pointwise. -/
theorem get0_update_version (a : VersionVector) (ver : Version) (x : Nat) :
    (a.update_version ver).get0 x =
      if x = ver.replica_id then max (a.get0 ver.replica_id) ver.counter else a.get0 x := by
  obtain ⟨l⟩ := a
  induction l with
  | nil =>
    show (VersionVector.mk [(ver.replica_id, ver.counter)]).get0 x = _
    rw [VersionVector.get0_cons]
    simp only [VersionVector.get0_nil]
    split_ifs <;> omega
  | cons p rest ih =>
    obtain ⟨k, y⟩ := p
    show (VersionVector.mk (VersionVector.bumpFirst ((k, y) :: rest) ver.replica_id
      ver.counter)).get0 x = _
    rw [VersionVector.bumpFirst]
    by_cases hk : k = ver.replica_id
    · rw [if_pos hk]
      simp only [VersionVector.get0_cons]
      split_ifs <;> omega
    · rw [if_neg hk]
      simp only [VersionVector.get0_cons]
      rw [show (VersionVector.mk (VersionVector.bumpFirst rest ver.replica_id ver.counter)) =
        (VersionVector.mk rest).update_version ver from rfl]
      rw [ih]
      split_ifs <;> omega

theorem get0_update_aux (l : List (Nat × Nat)) :
    ∀ (a : VersionVector), (l.map (fun p => p.1)).Nodup → ∀ x,
      (a.update (VersionVector.mk l)).get0 x = max (a.get0 x) ((VersionVector.mk l).get0 x) := by
  induction l with
  | nil =>
    intro a _ x
    show a.get0 x = _
    simp
  | cons p rest ih =>
    intro a hnd x
    obtain ⟨k, y⟩ := p
    have hsplit := List.nodup_cons.mp hnd
    show ((a.update_version ⟨k, y⟩).update (VersionVector.mk rest)).get0 x = _
    rw [ih (a.update_version ⟨k, y⟩) hsplit.2 x]
    rw [get0_update_version]
    by_cases hx : x = k
    · subst hx
      have h0 : (VersionVector.mk rest).get0 x = 0 :=
        get0_eq_zero_of_not_mem_keys _ _ (by simpa [VersionVector.keys] using hsplit.1)
      rw [if_pos rfl, h0, VersionVector.get0_cons, if_pos rfl, Nat.max_zero]
    · rw [if_neg hx, VersionVector.get0_cons, if_neg (fun hh => hx hh.symm)]

/-- `update` (pointwise-max merge) pointwise, for a second argument whose
keys are unique. -/
theorem get0_update (a b : VersionVector) (hb : b.keys.Nodup) (x : Nat) :
    (a.update b).get0 x = max (a.get0 x) (b.get0 x) := by
  obtain ⟨l⟩ := b
  exact get0_update_aux l a (by simpa [VersionVector.keys] using hb) x

/-- Monotonicity of `update` in its first argument, with no key hypothesis. -/
theorem get0_update_le (a b : VersionVector) (x : Nat) :
    a.get0 x ≤ (a.update b).get0 x := by
  obtain ⟨l⟩ := b
  induction l generalizing a with
  | nil => exact Nat.le_refl _
  | cons p rest ih =>
    show a.get0 x ≤ ((a.update_version ⟨p.1, p.2⟩).update (VersionVector.mk rest)).get0 x
    refine Nat.le_trans ?_ (ih (a.update_version ⟨p.1, p.2⟩))
    rw [get0_update_version]
    split
    · next h => rw [h]; exact Nat.le_max_left _ _
    · exact Nat.le_refl _

/-- `dominates` pointwise. -/
theorem dominates_iff (a b : VersionVector) :
    a.dominates b = true ↔ ∀ r, b.get0 r ≤ a.get0 r := by
  unfold VersionVector.dominates
  rw [List.all_eq_true]
  constructor
  · intro h r
    by_cases hr : r ∈ a.keys ++ b.keys
    · simpa using h r hr
    · have h0 : b.get0 r = 0 :=
        get0_eq_zero_of_not_mem_keys b r (fun hmem => hr (List.mem_append.mpr (Or.inr hmem)))
      rw [h0]
      exact Nat.zero_le _
  · intro h r _
    simpa using h r

theorem dominates_version_iff (a : VersionVector) (ver : Version) :
    a.dominates_version ver = true ↔ ver.counter ≤ a.get0 ver.replica_id := by
  unfold VersionVector.dominates_version
  simp

theorem dominates_refl (a : VersionVector) : a.dominates a = true :=
  (dominates_iff a a).mpr (fun _ => Nat.le_refl _)

theorem dominates_trans {a b c : VersionVector} (h1 : a.dominates b = true)
    (h2 : b.dominates c = true) : a.dominates c = true :=
  (dominates_iff a c).mpr (fun r =>
    Nat.le_trans ((dominates_iff b c).mp h2 r) ((dominates_iff a b).mp h1 r))

/-! ## Characterization of the version set operations -/

def VersionVector.wfKeys (a : VersionVector) : Prop := a.keys.Nodup

def VersionSet.wfKeys (S : VersionSet) : Prop := (S.v.map (fun p => p.1)).Nodup

instance (a : VersionVector) : Decidable a.wfKeys := by
  unfold VersionVector.wfKeys
  infer_instance

instance (S : VersionSet) : Decidable S.wfKeys := by
  unfold VersionSet.wfKeys
  infer_instance

/-- The prefix maximum recorded for `r` (0 when absent). -/
def VersionSet.pmOf (S : VersionSet) (r : Nat) : Nat :=
  ((S.findElem? r).map (fun e => e.prefix_max)).getD 0

@[simp] theorem VersionSet.findElem?_nil (r : Nat) :
    (VersionSet.mk []).findElem? r = none := rfl

theorem VersionSet.findElem?_cons (k : Nat) (e : VersionSetElement)
    (rest : List (Nat × VersionSetElement)) (r : Nat) :
    (VersionSet.mk ((k, e) :: rest)).findElem? r =
      if k = r then some e else (VersionSet.mk rest).findElem? r := by
  unfold VersionSet.findElem?
  by_cases h : k = r
  · rw [List.find?_cons_of_pos _ (by simpa using h), if_pos h]
    rfl
  · rw [List.find?_cons_of_neg _ (by simpa using h), if_neg h]

theorem findElem?_eq_none_of_not_mem (S : VersionSet) (r : Nat)
    (h : r ∉ S.v.map (fun p => p.1)) : S.findElem? r = none := by
  unfold VersionSet.findElem?
  rw [List.find?_eq_none.mpr]
  · rfl
  · intro p hp
    simp only [decide_eq_true_eq]
    intro hpr
    exact h (hpr ▸ List.mem_map_of_mem (fun p => p.1) hp)

theorem get0_gcpAux (l : List (Nat × VersionSetElement)) :
    ∀ (acc : VersionVector) (r : Nat), (l.map (fun p => p.1)).Nodup →
      (gcpAux l acc).get0 r = max (acc.get0 r) ((VersionSet.mk l).pmOf r) := by
  induction l with
  | nil =>
    intro acc r _
    show acc.get0 r = _
    simp [VersionSet.pmOf]
  | cons p rest ih =>
    intro acc r hnd
    obtain ⟨k, e⟩ := p
    have hsplit := List.nodup_cons.mp hnd
    show (gcpAux rest (if 0 < e.prefix_max then acc.update_version ⟨k, e.prefix_max⟩
      else acc)).get0 r = _
    rw [ih _ r hsplit.2]
    unfold VersionSet.pmOf
    rw [VersionSet.findElem?_cons]
    by_cases hk : k = r
    · subst hk
      have hnone : (VersionSet.mk rest).findElem? k = none :=
        findElem?_eq_none_of_not_mem _ _ hsplit.1
      rw [if_pos rfl, hnone]
      by_cases hpm : 0 < e.prefix_max
      · rw [if_pos hpm, get0_update_version, if_pos rfl]
        simp
      · rw [if_neg hpm]
        simp
        omega
    · rw [if_neg hk]
      by_cases hpm : 0 < e.prefix_max
      · rw [if_pos hpm, get0_update_version, if_neg (fun hh => hk hh.symm)]
      · rw [if_neg hpm]

theorem get0_gcp (S : VersionSet) (hS : S.wfKeys) (r : Nat) :
    S.get_gcp.get0 r = S.pmOf r := by
  unfold VersionSet.get_gcp
  obtain ⟨l⟩ := S
  rw [get0_gcpAux l ⟨[]⟩ r (by simpa [VersionSet.wfKeys] using hS)]
  simp

theorem gcpAux_extras_irrelevant (l : List (Nat × VersionSetElement)) :
    ∀ acc, gcpAux (l.map (fun p => (p.1, VersionSetElement.mk p.2.prefix_max ∅))) acc =
      gcpAux l acc := by
  induction l with
  | nil => intro acc; rfl
  | cons p rest ih =>
    intro acc
    obtain ⟨k, e⟩ := p
    show gcpAux (rest.map _) _ = _
    rw [ih]
    rfl

/-! ## C5: the GCP is the largest version vector dominated by the set -/

/-- C5: `get_gcp` is the largest version vector dominated by a version set:
the set dominates its own GCP; every version `(r, c)` with
`1 ≤ c ≤ gcp[r]` is a member of the set; the GCP reads each replica's
`prefix_max` and ignores `extras` entirely; and every version vector the
set dominates is dominated by the GCP. -/
theorem get_gcp_greatest (S : VersionSet) (hS : S.wfKeys) :
    S.dominates_vv S.get_gcp = true ∧
    (∀ r c, 1 ≤ c → c ≤ S.get_gcp.get0 r → S.has_version ⟨r, c⟩ = true) ∧
    VersionSet.get_gcp ⟨S.v.map (fun p => (p.1, VersionSetElement.mk p.2.prefix_max ∅))⟩ =
      S.get_gcp ∧
    (∀ W : VersionVector, S.dominates_vv W = true → S.get_gcp.dominates W = true) := by
  refine ⟨?_, ?_, ?_, ?_⟩
  · exact dominates_refl S.get_gcp
  · intro r c h1 h2
    rw [get0_gcp S hS r] at h2
    unfold VersionSet.pmOf at h2
    unfold VersionSet.has_version
    show (match S.findElem? r with
      | none => decide (c = 0)
      | some e => decide (c ≤ e.prefix_max) || decide (c ∈ e.extras)) = true
    cases hfe : S.findElem? r with
    | none =>
      rw [hfe] at h2
      simp at h2
      omega
    | some e =>
      rw [hfe] at h2
      simp at h2
      show (decide (c ≤ e.prefix_max) || decide (c ∈ e.extras)) = true
      simp
      left
      exact h2
  · unfold VersionSet.get_gcp
    exact gcpAux_extras_irrelevant S.v ⟨[]⟩
  · intro W h
    exact h

theorem get_gcp_greatest_witness :
    VersionSet.wfKeys ⟨[(1, ⟨2, {4}⟩), (3, ⟨1, ∅⟩)]⟩ ∧
    (VersionSet.mk [(1, ⟨2, {4}⟩), (3, ⟨1, ∅⟩)]).dominates_vv
        (VersionSet.mk [(1, ⟨2, {4}⟩), (3, ⟨1, ∅⟩)]).get_gcp = true ∧
    (VersionSet.mk [(1, ⟨2, {4}⟩), (3, ⟨1, ∅⟩)]).has_version ⟨1, 2⟩ = true := by
  have h := get_gcp_greatest ⟨[(1, ⟨2, {4}⟩), (3, ⟨1, ∅⟩)]⟩ (by decide)
  exact ⟨by decide, h.1, h.2.1 1 2 (by decide) (by decide)⟩

/-! ## C6: normalization of version set elements -/

/-- The normalization invariant: every extra is strictly above the prefix,
and the next contiguous version is not hiding in the extras. -/
def normEl (e : VersionSetElement) : Prop :=
  (∀ x ∈ e.extras, e.prefix_max < x) ∧ e.prefix_max + 1 ∉ e.extras

def normVS (S : VersionSet) : Prop := ∀ p ∈ S.v, normEl p.2

instance (e : VersionSetElement) : Decidable (normEl e) := by
  unfold normEl
  infer_instance

instance (S : VersionSet) : Decidable (normVS S) := by
  unfold normVS
  infer_instance

theorem mergeExtrasGo_norm : ∀ (fuel pm : Nat) (ex : Finset Nat), ex.card < fuel →
    (∀ x ∈ ex, pm < x) →
    (∀ x ∈ (mergeExtrasGo fuel pm ex).2, (mergeExtrasGo fuel pm ex).1 < x) ∧
    (mergeExtrasGo fuel pm ex).1 + 1 ∉ (mergeExtrasGo fuel pm ex).2 := by
  intro fuel
  induction fuel with
  | zero => intro pm ex hc; omega
  | succ f ih =>
    intro pm ex hc hall
    rw [mergeExtrasGo]
    by_cases hmem : pm + 1 ∈ ex
    · rw [if_pos hmem]
      refine ih (pm + 1) (ex.erase (pm + 1)) ?_ ?_
      · have h1 : ex.card ≠ 0 := Finset.card_ne_zero_of_mem hmem
        rw [Finset.card_erase_of_mem hmem]
        omega
      · intro x hx
        have h2 := Finset.mem_erase.mp hx
        have h3 := hall x h2.2
        have h4 := h2.1
        omega
    · rw [if_neg hmem]
      exact ⟨hall, hmem⟩

theorem mergeExtrasFun_norm (pm : Nat) (ex : Finset Nat) (h : ∀ x ∈ ex, pm < x) :
    normEl ⟨(mergeExtrasFun pm ex).1, (mergeExtrasFun pm ex).2⟩ :=
  mergeExtrasGo_norm (ex.card + 1) pm ex (Nat.lt_succ_self _) h

theorem normEl_insert (e : VersionSetElement) (h : normEl e) (c : Nat) :
    normEl (e.insert c) := by
  unfold VersionSetElement.insert
  by_cases h1 : c ≤ e.prefix_max
  · rw [if_pos h1]
    exact h
  · rw [if_neg h1]
    by_cases h2 : c = e.prefix_max + 1
    · rw [if_pos h2]
      refine mergeExtrasFun_norm c (e.extras.erase c) ?_
      intro x hx
      have h3 := Finset.mem_erase.mp hx
      have h4 := h.1 x h3.2
      have h5 := h3.1
      omega
    · rw [if_neg h2]
      refine ⟨?_, ?_⟩
      · intro x hx
        dsimp only at hx ⊢
        rcases Finset.mem_insert.mp hx with rfl | hx2
        · omega
        · exact h.1 x hx2
      · intro hmem
        dsimp only at hmem
        rcases Finset.mem_insert.mp hmem with heq | hx2
        · omega
        · exact h.2 hx2

theorem normEl_update_prefix_upper_bound (e : VersionSetElement) (h : normEl e) (c : Nat) :
    normEl (e.update_prefix_upper_bound c) := by
  unfold VersionSetElement.update_prefix_upper_bound
  by_cases h1 : e.prefix_max < c
  · rw [if_pos h1]
    refine mergeExtrasFun_norm c _ ?_
    intro x hx
    exact (Finset.mem_filter.mp hx).2
  · rw [if_neg h1]
    exact h

theorem normEl_insert_extras (e : VersionSetElement) (xs : Finset Nat) :
    normEl (e.insert_extras xs) := by
  unfold VersionSetElement.insert_extras
  refine mergeExtrasFun_norm e.prefix_max _ ?_
  intro x hx
  exact (Finset.mem_filter.mp hx).2

theorem setElemList_mem : ∀ (l : List (Nat × VersionSetElement)) (r : Nat)
    (e : VersionSetElement) (p : Nat × VersionSetElement),
    p ∈ VersionSet.setElemList l r e → p = (r, e) ∨ p ∈ l := by
  intro l
  induction l with
  | nil =>
    intro r e p hp
    simp [VersionSet.setElemList] at hp
    left
    simp [hp]
  | cons q rest ih =>
    intro r e p hp
    obtain ⟨k, x⟩ := q
    by_cases hk : k = r
    · rw [VersionSet.setElemList, if_pos hk] at hp
      rcases List.mem_cons.mp hp with rfl | hp2
      · left
        rw [hk]
      · right
        exact List.mem_cons_of_mem _ hp2
    · rw [VersionSet.setElemList, if_neg hk] at hp
      rcases List.mem_cons.mp hp with rfl | hp2
      · right
        exact List.mem_cons_self _ _
      · rcases ih r e p hp2 with h3 | h3
        · left
          exact h3
        · right
          exact List.mem_cons_of_mem _ h3

theorem normVS_setElem (S : VersionSet) (r : Nat) (e : VersionSetElement)
    (hS : normVS S) (he : normEl e) : normVS (S.setElem r e) := by
  intro p hp
  rcases setElemList_mem S.v r e p hp with rfl | hp2
  · exact he
  · exact hS p hp2

theorem normEl_elem0 (S : VersionSet) (r : Nat) (hS : normVS S) : normEl (S.elem0 r) := by
  unfold VersionSet.elem0
  cases hfe : S.findElem? r with
  | none =>
    show normEl ⟨0, ∅⟩
    refine ⟨?_, ?_⟩ <;> simp
  | some e =>
    show normEl e
    unfold VersionSet.findElem? at hfe
    cases hfind : S.v.find? (fun p => p.1 = r) with
    | none => rw [hfind] at hfe; cases hfe
    | some p =>
      rw [hfind] at hfe
      have hmem := List.mem_of_find?_eq_some hfind
      have : p.2 = e := by simpa using hfe
      rw [← this]
      exact hS p hmem

/-- C6: after every operation on a `VersionSetElement` (insert,
update_prefix_upper_bound, insert_extras) and after every `VersionSet`
operation built from them (insert_version, merge, merge_one_version), every
element of `extras` is strictly greater than `prefix_max`, and
`prefix_max + 1` is not an element of `extras`. -/
theorem versionset_normalization :
    (∀ e c, normEl e → normEl (e.insert c)) ∧
    (∀ e c, normEl e → normEl (e.update_prefix_upper_bound c)) ∧
    (∀ (e : VersionSetElement) (xs : Finset Nat), normEl (e.insert_extras xs)) ∧
    (∀ S ver, normVS S → normVS (S.insert_version ver)) ∧
    (∀ S T, normVS S → normVS (S.merge T)) ∧
    (∀ S ver, normVS S → normVS (S.merge_one_version ver)) := by
  have hmerge : ∀ (l : List (Nat × VersionSetElement)) (S : VersionSet), normVS S →
      normVS (l.foldl (fun acc p =>
        acc.setElem p.1
          (((acc.elem0 p.1).update_prefix_upper_bound p.2.prefix_max).insert_extras
            p.2.extras)) S) := by
    intro l
    induction l with
    | nil => intro S hS; exact hS
    | cons p rest ih =>
      intro S hS
      exact ih _ (normVS_setElem _ _ _ hS (normEl_insert_extras _ _))
  refine ⟨?_, ?_, ?_, ?_, ?_, ?_⟩
  · intro e c h
    exact normEl_insert e h c
  · intro e c h
    exact normEl_update_prefix_upper_bound e h c
  · intro e xs
    exact normEl_insert_extras e xs
  · intro S ver hS
    exact normVS_setElem _ _ _ hS (normEl_insert _ (normEl_elem0 S _ hS) _)
  · intro S T hS
    exact hmerge T.v S hS
  · intro S ver hS
    exact normVS_setElem _ _ _ hS
      (normEl_update_prefix_upper_bound _ (normEl_elem0 S _ hS) _)

theorem versionset_normalization_witness :
    normEl (VersionSetElement.mk 1 {3, 5}) ∧
    normEl ((VersionSetElement.mk 1 {3, 5}).insert 2) ∧
    normVS (VersionSet.mk [(0, ⟨1, {3}⟩)]) ∧
    normVS ((VersionSet.mk [(0, ⟨1, {3}⟩)]).insert_version ⟨0, 2⟩) := by
  have h := versionset_normalization
  exact ⟨by decide, h.1 ⟨1, {3, 5}⟩ 2 (by decide), by decide,
    h.2.2.2.1 ⟨[(0, ⟨1, {3}⟩)]⟩ ⟨0, 2⟩ (by decide)⟩

/-! ## Specification of the visibility engine, step 1 (causal visibility) -/

/-- Latching only ever widens `visible`. -/
theorem fvvStep1_mono (K : VersionSet) (committed : VersionVector) :
    ∀ (l : List ObjectVersion) (vis : VersionVector) (x : Nat),
      vis.get0 x ≤ (fvvStep1 K committed l vis).2.get0 x := by
  intro l
  induction l with
  | nil => intro vis x; exact Nat.le_refl _
  | cons ov rest ih =>
    intro vis x
    rw [fvvStep1]
    split
    · cases h : fvvStep1 K committed rest vis with
      | mk res vis2 =>
        have := ih vis x
        rw [h] at this
        cases res <;> simpa using this
    · split
      · exact Nat.le_refl _
      · split
        · exact Nat.le_refl _
        · next ts _ =>
          split
          · cases h : fvvStep1 K committed rest (vis.update ts) with
            | mk res vis2 =>
              have h2 := ih (vis.update ts) x
              rw [h] at h2
              have h3 := get0_update_le vis ts x
              cases res <;> simp at h2 ⊢ <;> omega
          · exact ih vis x

/-- Latching stays below the pointwise join of `visible` and the GCP of
`knowledge` (each latched timestamp is dominated by `knowledge`). -/
theorem fvvStep1_bound (K : VersionSet) (committed : VersionVector) :
    ∀ (l : List ObjectVersion) (vis : VersionVector),
      (∀ ov ∈ l, ∀ ts, ov.timestamp = some ts → ts.wfKeys) →
      ∀ x, (fvvStep1 K committed l vis).2.get0 x ≤ max (vis.get0 x) (K.get_gcp.get0 x) := by
  intro l
  induction l with
  | nil => intro vis _ x; exact Nat.le_max_left _ _
  | cons ov rest ih =>
    intro vis hw x
    have hwrest : ∀ ov ∈ rest, ∀ ts, ov.timestamp = some ts → ts.wfKeys :=
      fun o ho ts hts => hw o (List.mem_cons_of_mem _ ho) ts hts
    rw [fvvStep1]
    split
    · cases h : fvvStep1 K committed rest vis with
      | mk res vis2 =>
        have h2 := ih vis hwrest x
        rw [h] at h2
        cases res <;> simpa using h2
    · split
      · exact Nat.le_max_left _ _
      · split
        · exact Nat.le_max_left _ _
        · next ts hts =>
          split
          · next hdom =>
            cases h : fvvStep1 K committed rest (vis.update ts) with
            | mk res vis2 =>
              have h2 := ih (vis.update ts) hwrest x
              rw [h] at h2
              have hwts : ts.wfKeys := hw ov (List.mem_cons_self _ _) ts hts
              have h3 : (vis.update ts).get0 x = max (vis.get0 x) (ts.get0 x) :=
                get0_update vis ts hwts x
              have h4 : ts.get0 x ≤ K.get_gcp.get0 x := by
                have := (dominates_iff K.get_gcp ts).mp hdom
                exact this x
              cases res <;> simp at h2 ⊢ <;> omega
          · exact ih vis hwrest x

/-- The merged-in vector is below the merge result pointwise. -/
theorem get0_le_update_right (a b : VersionVector) (x : Nat) :
    b.get0 x ≤ (a.update b).get0 x := by
  obtain ⟨l⟩ := b
  induction l generalizing a with
  | nil => simp
  | cons p rest ih =>
    obtain ⟨k, c⟩ := p
    show (VersionVector.mk ((k, c) :: rest)).get0 x ≤
      ((a.update_version ⟨k, c⟩).update (VersionVector.mk rest)).get0 x
    rw [VersionVector.get0_cons]
    by_cases hk : k = x
    · rw [if_pos hk]
      refine Nat.le_trans ?_ (get0_update_le (a.update_version ⟨k, c⟩) (VersionVector.mk rest) x)
      rw [get0_update_version]
      rw [if_pos hk.symm]
      subst hk
      exact Nat.le_max_right _ _
    · rw [if_neg hk]
      exact ih (a.update_version ⟨k, c⟩)

/-- Step 1 never raises under the documented record invariants, and its
output consists of versions of the record, each dominated by the latched
visible vector; every version already dominated by the incoming visible
vector is in the output. -/
theorem fvvStep1_ok (K : VersionSet) (committed : VersionVector) :
    ∀ (l : List ObjectVersion) (vis : VersionVector),
      (∀ x, committed.get0 x ≤ vis.get0 x) →
      (∀ ov ∈ l, ov.timestamp = none → committed.dominates_version ov.version = true) →
      (∀ ov ∈ l, ∀ ts, ov.timestamp = some ts → ts.dominates_version ov.version = true) →
      ∃ out, (fvvStep1 K committed l vis).1 = .ok out ∧
        (∀ ov ∈ out, ov ∈ l) ∧
        (∀ ov ∈ out, (fvvStep1 K committed l vis).2.dominates_version ov.version = true) ∧
        (∀ ov ∈ l, vis.dominates_version ov.version = true → ov ∈ out) := by
  intro l
  induction l with
  | nil =>
    intro vis _ _ _
    exact ⟨[], rfl, by simp, by simp, by simp⟩
  | cons ov rest ih =>
    intro vis hvc helide hts
    have helide2 : ∀ o ∈ rest, o.timestamp = none → committed.dominates_version o.version = true :=
      fun o ho => helide o (List.mem_cons_of_mem _ ho)
    have hts2 : ∀ o ∈ rest, ∀ ts, o.timestamp = some ts → ts.dominates_version o.version = true :=
      fun o ho => hts o (List.mem_cons_of_mem _ ho)
    rw [fvvStep1]
    by_cases h1 : vis.dominates_version ov.version = true
    · rw [if_pos h1]
      obtain ⟨out, hout, hmem, hdom, hcomp⟩ := ih vis hvc helide2 hts2
      cases hrec : fvvStep1 K committed rest vis with
      | mk res vis2 =>
        rw [hrec] at hout hdom
        simp only at hout hdom
        subst hout
        refine ⟨ov :: out, by simp, ?_, ?_, ?_⟩
        · intro o ho
          rcases List.mem_cons.mp ho with rfl | ho2
          · exact List.mem_cons_self _ _
          · exact List.mem_cons_of_mem _ (hmem o ho2)
        · intro o ho
          rcases List.mem_cons.mp ho with rfl | ho2
          · simp only
            rw [dominates_version_iff]
            refine Nat.le_trans ((dominates_version_iff vis o.version).mp h1) ?_
            have := fvvStep1_mono K committed rest vis o.version.replica_id
            rw [hrec] at this
            exact this
          · exact hdom o ho2
        · intro o ho hov
          rcases List.mem_cons.mp ho with rfl | ho2
          · exact List.mem_cons_self _ _
          · exact List.mem_cons_of_mem _ (hcomp o ho2 hov)
    · rw [if_neg h1]
      have hnc : ¬ (committed.dominates_version ov.version = true) := by
        intro hc
        refine h1 ?_
        rw [dominates_version_iff] at hc ⊢
        exact Nat.le_trans hc (hvc _)
      rw [if_neg hnc]
      cases hodts : ov.timestamp with
      | none => exact absurd (helide ov (List.mem_cons_self _ _) hodts) hnc
      | some ts =>
        dsimp only
        by_cases h2 : K.dominates_vv ts = true
        · rw [if_pos h2]
          have hvc2 : ∀ x, committed.get0 x ≤ (vis.update ts).get0 x :=
            fun x => Nat.le_trans (hvc x) (get0_update_le vis ts x)
          obtain ⟨out, hout, hmem, hdom, hcomp⟩ := ih (vis.update ts) hvc2 helide2 hts2
          cases hrec : fvvStep1 K committed rest (vis.update ts) with
          | mk res vis2 =>
            rw [hrec] at hout hdom
            simp only at hout hdom
            subst hout
            refine ⟨ov :: out, by simp, ?_, ?_, ?_⟩
            · intro o ho
              rcases List.mem_cons.mp ho with rfl | ho2
              · exact List.mem_cons_self _ _
              · exact List.mem_cons_of_mem _ (hmem o ho2)
            · intro o ho
              rcases List.mem_cons.mp ho with rfl | ho2
              · simp only
                rw [dominates_version_iff]
                have hts3 := (dominates_version_iff ts o.version).mp
                  (hts o (List.mem_cons_self _ _) ts hodts)
                refine Nat.le_trans hts3 ?_
                refine Nat.le_trans (get0_le_update_right vis ts o.version.replica_id) ?_
                have := fvvStep1_mono K committed rest (vis.update ts) o.version.replica_id
                rw [hrec] at this
                exact this
              · exact hdom o ho2
            · intro o ho hov
              rcases List.mem_cons.mp ho with rfl | ho2
              · exact List.mem_cons_self _ _
              · refine List.mem_cons_of_mem _ (hcomp o ho2 ?_)
                rw [dominates_version_iff] at hov ⊢
                exact Nat.le_trans hov (get0_update_le vis ts _)
        · rw [if_neg h2]
          obtain ⟨out, hout, hmem, hdom, hcomp⟩ := ih vis hvc helide2 hts2
          refine ⟨out, hout, fun o ho => List.mem_cons_of_mem _ (hmem o ho), hdom, ?_⟩
          intro o ho hov
          rcases List.mem_cons.mp ho with rfl | ho2
          · exact absurd hov h1
          · exact hcomp o ho2 hov

/-! ## Specification of the visibility engine, step 2 (supersession) -/

/-- `y` alive implies `x` was the same alive entry: the supersession pass
only replaces entries by `none`, position by position. -/
def aliveSub (x y : Option ObjectVersion) : Prop := ∀ a, y = some a → x = some a

theorem aliveSub_refl (x : Option ObjectVersion) : aliveSub x x := fun _ h => h

theorem forall₂_aliveSub_refl (l : List (Option ObjectVersion)) :
    List.Forall₂ aliveSub l l := by
  induction l with
  | nil => exact List.Forall₂.nil
  | cons x rest ih => exact List.Forall₂.cons (aliveSub_refl x) ih

theorem forall₂_aliveSub_trans : ∀ {l m n : List (Option ObjectVersion)},
    List.Forall₂ aliveSub l m → List.Forall₂ aliveSub m n → List.Forall₂ aliveSub l n := by
  intro l m n h1 h2
  induction h2 generalizing l with
  | nil => cases h1; exact List.Forall₂.nil
  | cons hxy hrest ih =>
    cases h1 with
    | cons hxy2 hrest2 =>
      exact List.Forall₂.cons (fun a ha => hxy2 a (hxy a ha)) (ih hrest2)

theorem forall₂_mem_right {R : Option ObjectVersion → Option ObjectVersion → Prop} :
    ∀ {l r : List (Option ObjectVersion)}, List.Forall₂ R l r →
      ∀ y ∈ r, ∃ x ∈ l, R x y := by
  intro l r h
  induction h with
  | nil => intro y hy; cases hy
  | cons hxy hrest ih =>
    intro y hy
    rcases List.mem_cons.mp hy with rfl | hy2
    · exact ⟨_, List.mem_cons_self _ _, hxy⟩
    · obtain ⟨x, hx, hr⟩ := ih y hy2
      exact ⟨x, List.mem_cons_of_mem _ hx, hr⟩

theorem fvvSuperInner_sub {ovi : ObjectVersion} :
    ∀ {l l' : List (Option ObjectVersion)} {d : Bool},
      fvvSuperInner ovi l = .ok (l', d) → List.Forall₂ aliveSub l l' := by
  intro l
  induction l with
  | nil =>
    intro l' d h
    simp only [fvvSuperInner, Except.ok.injEq, Prod.mk.injEq] at h
    obtain ⟨rfl, rfl⟩ := h
    exact List.Forall₂.nil
  | cons x rest ih =>
    intro l' d h
    cases x with
    | none =>
      simp only [fvvSuperInner] at h
      split at h
      · cases h
      · next p heq =>
        simp only [Except.ok.injEq, Prod.mk.injEq] at h
        obtain ⟨rfl, rfl⟩ := h
        exact List.Forall₂.cons (fun a ha => ha) (ih heq)
    | some ovj =>
      simp only [fvvSuperInner] at h
      split at h
      · cases h
      · split at h
        · cases h
        · split at h
          · split at h
            · cases h
            · next p heq =>
              simp only [Except.ok.injEq, Prod.mk.injEq] at h
              obtain ⟨rfl, rfl⟩ := h
              refine List.Forall₂.cons ?_ (ih heq)
              intro a ha
              cases ha
          · split at h
            · simp only [Except.ok.injEq, Prod.mk.injEq] at h
              obtain ⟨rfl, rfl⟩ := h
              exact forall₂_aliveSub_refl _
            · split at h
              · cases h
              · next p heq =>
                simp only [Except.ok.injEq, Prod.mk.injEq] at h
                obtain ⟨rfl, rfl⟩ := h
                exact List.Forall₂.cons (aliveSub_refl _) (ih heq)

theorem fvvSuperInner_false_facts {ovi : ObjectVersion} :
    ∀ {l l' : List (Option ObjectVersion)},
      fvvSuperInner ovi l = .ok (l', false) →
      ∀ b, some b ∈ l' → ∃ tsi tsb, ovi.timestamp = some tsi ∧ b.timestamp = some tsb ∧
        tsi.dominates_version b.version = false ∧ tsb.dominates_version ovi.version = false := by
  intro l
  induction l with
  | nil =>
    intro l' h b hb
    simp only [fvvSuperInner, Except.ok.injEq, Prod.mk.injEq] at h
    obtain ⟨rfl, -⟩ := h
    cases hb
  | cons x rest ih =>
    intro l' h b hb
    cases x with
    | none =>
      simp only [fvvSuperInner] at h
      split at h
      · cases h
      · next p heq =>
        simp only [Except.ok.injEq, Prod.mk.injEq] at h
        obtain ⟨rfl, hd⟩ := h
        rcases List.mem_cons.mp hb with hcon | hb2
        · cases hcon
        · obtain ⟨q1, q2⟩ := p
          cases hd
          exact ih heq b hb2
    | some ovj =>
      simp only [fvvSuperInner] at h
      split at h
      · cases h
      · next tsi htsi =>
        split at h
        · cases h
        · next tsj htsj =>
          split at h
          · split at h
            · cases h
            · next p heq =>
              simp only [Except.ok.injEq, Prod.mk.injEq] at h
              obtain ⟨rfl, hd⟩ := h
              rcases List.mem_cons.mp hb with hcon | hb2
              · cases hcon
              · obtain ⟨q1, q2⟩ := p
                cases hd
                exact ih heq b hb2
          · split at h
            · simp only [Except.ok.injEq, Prod.mk.injEq] at h
              obtain ⟨-, hd⟩ := h
              cases hd
            · next h2 =>
              next h3 =>
                split at h
                · cases h
                · next p heq =>
                  simp only [Except.ok.injEq, Prod.mk.injEq] at h
                  obtain ⟨rfl, hd⟩ := h
                  rcases List.mem_cons.mp hb with hcon | hb2
                  · cases hcon with
                    | refl =>
                      refine ⟨tsi, tsj, htsi, htsj, ?_, ?_⟩
                      · cases hvv : tsi.dominates_version b.version
                        · rfl
                        · exact absurd hvv h3
                      · cases hvv : tsj.dominates_version ovi.version
                        · rfl
                        · exact absurd hvv h2
                  · obtain ⟨q1, q2⟩ := p
                    cases hd
                    exact ih heq b hb2

theorem fvvSuperInner_true_alive {ovi : ObjectVersion} :
    ∀ {l l' : List (Option ObjectVersion)},
      fvvSuperInner ovi l = .ok (l', true) → ∃ b, some b ∈ l' := by
  intro l
  induction l with
  | nil =>
    intro l' h
    simp only [fvvSuperInner, Except.ok.injEq, Prod.mk.injEq] at h
    obtain ⟨-, hd⟩ := h
    cases hd
  | cons x rest ih =>
    intro l' h
    cases x with
    | none =>
      simp only [fvvSuperInner] at h
      split at h
      · cases h
      · next p heq =>
        simp only [Except.ok.injEq, Prod.mk.injEq] at h
        obtain ⟨rfl, hd⟩ := h
        obtain ⟨q1, q2⟩ := p
        cases hd
        obtain ⟨b, hb⟩ := ih heq
        exact ⟨b, List.mem_cons_of_mem _ hb⟩
    | some ovj =>
      simp only [fvvSuperInner] at h
      split at h
      · cases h
      · split at h
        · cases h
        · split at h
          · split at h
            · cases h
            · next p heq =>
              simp only [Except.ok.injEq, Prod.mk.injEq] at h
              obtain ⟨rfl, hd⟩ := h
              obtain ⟨q1, q2⟩ := p
              cases hd
              obtain ⟨b, hb⟩ := ih heq
              exact ⟨b, List.mem_cons_of_mem _ hb⟩
          · split at h
            · simp only [Except.ok.injEq, Prod.mk.injEq] at h
              obtain ⟨rfl, -⟩ := h
              exact ⟨ovj, List.mem_cons_self _ _⟩
            · split at h
              · cases h
              · next p heq =>
                simp only [Except.ok.injEq, Prod.mk.injEq] at h
                obtain ⟨rfl, hd⟩ := h
                obtain ⟨q1, q2⟩ := p
                cases hd
                obtain ⟨b, hb⟩ := ih heq
                exact ⟨b, List.mem_cons_of_mem _ hb⟩

/-- Distinct alive entries carry distinct replica ids. -/
def uniqRep (x y : Option ObjectVersion) : Prop :=
  ∀ a b, x = some a → y = some b → a.version.replica_id ≠ b.version.replica_id

/-- A pair of entries with the same replica id can be resolved by
supersession: one of the (present) timestamps dominates the other version. -/
def resolvable (x y : Option ObjectVersion) : Prop :=
  ∀ a b, x = some a → y = some b → a.version.replica_id = b.version.replica_id →
    (∃ tsa, a.timestamp = some tsa ∧ tsa.dominates_version b.version = true) ∨
    (∃ tsb, b.timestamp = some tsb ∧ tsb.dominates_version a.version = true)

theorem pairwise_transfer {P : Option ObjectVersion → Option ObjectVersion → Prop}
    (hP : ∀ {x x' y y'}, aliveSub x x' → aliveSub y y' → P x y → P x' y') :
    ∀ {l r : List (Option ObjectVersion)}, List.Forall₂ aliveSub l r →
      l.Pairwise P → r.Pairwise P := by
  intro l r h
  induction h with
  | nil => intro _; exact List.Pairwise.nil
  | cons hxy hrest ih =>
    intro hp
    obtain ⟨hhead, htail⟩ := List.pairwise_cons.mp hp
    refine List.Pairwise.cons ?_ (ih htail)
    intro y' hy'
    obtain ⟨y, hy, hsub⟩ := forall₂_mem_right hrest y' hy'
    exact hP hxy hsub (hhead y hy)

theorem pairwise_of_forall_mem {α : Type} {R : α → α → Prop} :
    ∀ (l : List α), (∀ a ∈ l, ∀ b ∈ l, R a b) → l.Pairwise R := by
  intro l
  induction l with
  | nil => intro _; exact List.Pairwise.nil
  | cons x rest ih =>
    intro h
    refine List.Pairwise.cons ?_ (ih ?_)
    · intro y hy
      exact h x (List.mem_cons_self _ _) y (List.mem_cons_of_mem _ hy)
    · intro a ha b hb
      exact h a (List.mem_cons_of_mem _ ha) b (List.mem_cons_of_mem _ hb)

theorem fvvSuperOuterGo_sub : ∀ (fuel : Nat) (l r : List (Option ObjectVersion)),
    l.length ≤ fuel → fvvSuperOuterGo fuel l = .ok r → List.Forall₂ aliveSub l r := by
  intro fuel
  induction fuel with
  | zero =>
    intro l r hl h
    cases l with
    | nil =>
      simp only [fvvSuperOuterGo, Except.ok.injEq] at h
      subst h
      exact List.Forall₂.nil
    | cons x rest => simp at hl
  | succ f ih =>
    intro l r hl h
    cases l with
    | nil =>
      simp only [fvvSuperOuterGo, Except.ok.injEq] at h
      subst h
      exact List.Forall₂.nil
    | cons x rest =>
      have hlr : rest.length ≤ f := by simpa using hl
      cases x with
      | none =>
        simp only [fvvSuperOuterGo] at h
        split at h
        · cases h
        · next r' heq =>
          simp only [Except.ok.injEq] at h
          subst h
          exact List.Forall₂.cons (fun a ha => ha) (ih rest r' hlr heq)
      | some ovi =>
        simp only [fvvSuperOuterGo] at h
        split at h
        · cases h
        · next p heq1 =>
          split at h
          · cases h
          · next r2 heq2 =>
            simp only [Except.ok.injEq] at h
            subst h
            have hsub1 : List.Forall₂ aliveSub rest p.1 := fvvSuperInner_sub heq1
            have hlen : p.1.length = rest.length := fvvSuperInner_length heq1
            have hsub2 : List.Forall₂ aliveSub p.1 r2 :=
              ih p.1 r2 (hlen ▸ hlr) heq2
            refine List.Forall₂.cons ?_ (forall₂_aliveSub_trans hsub1 hsub2)
            cases p.2 with
            | true => intro a ha; cases ha
            | false => exact aliveSub_refl _

theorem fvvSuperOuterGo_alive : ∀ (fuel : Nat) (l r : List (Option ObjectVersion)),
    l.length ≤ fuel → fvvSuperOuterGo fuel l = .ok r →
    (∃ a, some a ∈ l) → ∃ b, some b ∈ r := by
  intro fuel
  induction fuel with
  | zero =>
    intro l r hl h halive
    cases l with
    | nil =>
      obtain ⟨a, ha⟩ := halive
      cases ha
    | cons x rest => simp at hl
  | succ f ih =>
    intro l r hl h halive
    cases l with
    | nil =>
      obtain ⟨a, ha⟩ := halive
      cases ha
    | cons x rest =>
      have hlr : rest.length ≤ f := by simpa using hl
      cases x with
      | none =>
        simp only [fvvSuperOuterGo] at h
        split at h
        · cases h
        · next r' heq =>
          simp only [Except.ok.injEq] at h
          subst h
          obtain ⟨a, ha⟩ := halive
          rcases List.mem_cons.mp ha with hcon | ha2
          · cases hcon
          · obtain ⟨b, hb⟩ := ih rest r' hlr heq ⟨a, ha2⟩
            exact ⟨b, List.mem_cons_of_mem _ hb⟩
      | some ovi =>
        simp only [fvvSuperOuterGo] at h
        split at h
        · cases h
        · next p heq1 =>
          split at h
          · cases h
          · next r2 heq2 =>
            simp only [Except.ok.injEq] at h
            subst h
            have hlen : p.1.length = rest.length := fvvSuperInner_length heq1
            cases hp2 : p.2 with
            | false =>
              exact ⟨ovi, by simp⟩
            | true =>
              have halive2 : ∃ b, some b ∈ p.1 :=
                fvvSuperInner_true_alive
                  (show fvvSuperInner ovi rest = .ok (p.1, true) from by rw [heq1, ← hp2])
              obtain ⟨b, hb⟩ := ih p.1 r2 (hlen ▸ hlr) heq2 halive2
              exact ⟨b, List.mem_cons_of_mem _ hb⟩

theorem fvvSuperOuterGo_pairwise : ∀ (fuel : Nat) (l r : List (Option ObjectVersion)),
    l.length ≤ fuel → fvvSuperOuterGo fuel l = .ok r →
    l.Pairwise resolvable → r.Pairwise uniqRep := by
  intro fuel
  induction fuel with
  | zero =>
    intro l r hl h hp
    cases l with
    | nil =>
      simp only [fvvSuperOuterGo, Except.ok.injEq] at h
      subst h
      exact List.Pairwise.nil
    | cons x rest => simp at hl
  | succ f ih =>
    intro l r hl h hp
    cases l with
    | nil =>
      simp only [fvvSuperOuterGo, Except.ok.injEq] at h
      subst h
      exact List.Pairwise.nil
    | cons x rest =>
      have hlr : rest.length ≤ f := by simpa using hl
      obtain ⟨hphead, hptail⟩ := List.pairwise_cons.mp hp
      cases x with
      | none =>
        simp only [fvvSuperOuterGo] at h
        split at h
        · cases h
        · next r' heq =>
          simp only [Except.ok.injEq] at h
          subst h
          refine List.Pairwise.cons ?_ (ih rest r' hlr heq hptail)
          intro y hy a b ha hb
          cases ha
      | some ovi =>
        simp only [fvvSuperOuterGo] at h
        split at h
        · cases h
        · next p heq1 =>
          split at h
          · cases h
          · next r2 heq2 =>
            simp only [Except.ok.injEq] at h
            subst h
            have hsub1 : List.Forall₂ aliveSub rest p.1 := fvvSuperInner_sub heq1
            have hlen : p.1.length = rest.length := fvvSuperInner_length heq1
            have hmono : ∀ {x x' y y' : Option ObjectVersion}, aliveSub x x' →
                aliveSub y y' → resolvable x y → resolvable x' y' := by
              intro x x' y y' hx hy hres a b ha hb
              exact hres a b (hx a ha) (hy b hb)
            have hptail2 : p.1.Pairwise resolvable := pairwise_transfer hmono hsub1 hptail
            have htail : r2.Pairwise uniqRep := ih p.1 r2 (hlen ▸ hlr) heq2 hptail2
            cases hp2 : p.2 with
            | true =>
              show List.Pairwise uniqRep (none :: r2)
              refine List.Pairwise.cons ?_ htail
              intro y hy a b ha hb
              cases ha
            | false =>
              show List.Pairwise uniqRep (some ovi :: r2)
              refine List.Pairwise.cons ?_ htail
              intro y hy a b ha hb
              cases ha
              have hsub2 : List.Forall₂ aliveSub p.1 r2 := fvvSuperOuterGo_sub f p.1 r2
                (hlen ▸ hlr) heq2
              obtain ⟨y1, hy1, hsuby1⟩ := forall₂_mem_right hsub2 y hy
              have hb1 : y1 = some b := hsuby1 b hb
              subst hb1
              have hfacts := fvvSuperInner_false_facts
                (show fvvSuperInner ovi rest = .ok (p.1, false) from by rw [heq1, ← hp2])
                b hy1
              obtain ⟨tsi, tsb, hti, htb, hf1, hf2⟩ := hfacts
              obtain ⟨y0, hy0, hsuby0⟩ := forall₂_mem_right hsub1 (some b) hy1
              have hb0 : y0 = some b := hsuby0 b rfl
              subst hb0
              intro hrep
              rcases hphead (some b) hy0 ovi b rfl rfl hrep with ⟨tsa, hta, hda⟩ | ⟨tsb2, htb2, hdb⟩
              · rw [hti] at hta
                cases hta
                rw [hda] at hf1
                cases hf1
              · rw [htb] at htb2
                cases htb2
                rw [hdb] at hf2
                cases hf2

theorem fvvSuperOuter_sub (l r : List (Option ObjectVersion))
    (h : fvvSuperOuter l = .ok r) : List.Forall₂ aliveSub l r :=
  fvvSuperOuterGo_sub l.length l r (Nat.le_refl _) h

theorem fvvSuperOuter_alive (l r : List (Option ObjectVersion))
    (h : fvvSuperOuter l = .ok r) (ha : ∃ a, some a ∈ l) : ∃ b, some b ∈ r :=
  fvvSuperOuterGo_alive l.length l r (Nat.le_refl _) h ha

theorem fvvSuperOuter_pairwise (l r : List (Option ObjectVersion))
    (h : fvvSuperOuter l = .ok r) (hp : l.Pairwise resolvable) : r.Pairwise uniqRep :=
  fvvSuperOuterGo_pairwise l.length l r (Nat.le_refl _) h hp

/-! ## Specification of the visibility engine, step 3 (aggregation) -/

theorem wfKeys_update_version (a : VersionVector) (ver : Version) (h : a.wfKeys) :
    (a.update_version ver).wfKeys := by
  obtain ⟨l⟩ := a
  unfold VersionVector.wfKeys VersionVector.keys at h ⊢
  show (List.map _ (VersionVector.bumpFirst l ver.replica_id ver.counter)).Nodup
  induction l with
  | nil => simp [VersionVector.bumpFirst]
  | cons p rest ih =>
    obtain ⟨k, y⟩ := p
    rw [VersionVector.bumpFirst]
    by_cases hk : k = ver.replica_id
    · rw [if_pos hk]
      simpa using h
    · rw [if_neg hk]
      simp only [List.map_cons] at h ⊢
      have hsplit := List.nodup_cons.mp h
      refine List.nodup_cons.mpr ⟨?_, ih hsplit.2⟩
      intro hmem
      have hkeys : ∀ x, x ∈ (VersionVector.bumpFirst rest ver.replica_id ver.counter).map
          (fun p => p.1) → x ∈ rest.map (fun p => p.1) ∨ x = ver.replica_id := by
        clear hmem ih h hsplit
        induction rest with
        | nil =>
          intro x hx
          simp [VersionVector.bumpFirst] at hx
          right
          exact hx
        | cons q rest2 ih2 =>
          intro x hx
          obtain ⟨k2, y2⟩ := q
          rw [VersionVector.bumpFirst] at hx
          by_cases hk2 : k2 = ver.replica_id
          · rw [if_pos hk2] at hx
            left
            simpa using hx
          · rw [if_neg hk2] at hx
            simp only [List.map_cons, List.mem_cons] at hx
            rcases hx with rfl | hx2
            · left
              simp
            · rcases ih2 x hx2 with h3 | h3
              · left
                simp [h3]
              · right
                exact h3
      rcases hkeys k hmem with h3 | h3
      · exact hsplit.1 h3
      · exact hk h3

/-- A fold of `update_version` starting from a nodup-key vector is
nodup-key; in particular the dependent vector built by step 3. -/
theorem fvvStep3_spec :
    ∀ (l : List (Option ObjectVersion)) (acc : VersionVector),
      l.Pairwise uniqRep →
      (∀ a, some a ∈ l → acc.get0 a.version.replica_id = 0) →
      acc.wfKeys →
      ∃ vv vals, fvvStep3 l acc = .ok (vv, vals) ∧
        vv.wfKeys ∧
        (∀ a, some a ∈ l → vv.get_version a.version.replica_id = a.version) ∧
        (∀ x, vv.get0 x = acc.get0 x ∨
          ∃ a, some a ∈ l ∧ a.version.replica_id = x ∧ a.version.counter = vv.get0 x) := by
  intro l
  induction l with
  | nil =>
    intro acc _ _ hwf
    exact ⟨acc, [], rfl, hwf, fun a ha => absurd ha (by simp), fun x => Or.inl rfl⟩
  | cons y rest ih =>
    intro acc hpw hzero hwf
    obtain ⟨hphead, hptail⟩ := List.pairwise_cons.mp hpw
    cases y with
    | none =>
      rw [fvvStep3]
      obtain ⟨vv, vals, heq, hvw, hget, hchar⟩ := ih acc hptail
        (fun a ha => hzero a (List.mem_cons_of_mem _ ha)) hwf
      refine ⟨vv, vals, heq, hvw, ?_, ?_⟩
      · intro a ha
        rcases List.mem_cons.mp ha with hcon | ha2
        · cases hcon
        · exact hget a ha2
      · intro x
        rcases hchar x with h | ⟨a, ha, h2, h3⟩
        · exact Or.inl h
        · exact Or.inr ⟨a, List.mem_cons_of_mem _ ha, h2, h3⟩
    | some a =>
      rw [fvvStep3]
      have hz : (acc.get_version a.version.replica_id).counter = 0 :=
        hzero a (List.mem_cons_self _ _)
      rw [if_pos hz]
      set acc2 := acc.update_version a.version with hacc2
      have hzero2 : ∀ b, some b ∈ rest → acc2.get0 b.version.replica_id = 0 := by
        intro b hb
        rw [hacc2, get0_update_version]
        have hne : a.version.replica_id ≠ b.version.replica_id :=
          hphead (some b) hb a b rfl rfl
        rw [if_neg (fun hh => hne hh.symm)]
        exact hzero b (List.mem_cons_of_mem _ hb)
      have hwf2 : acc2.wfKeys := wfKeys_update_version acc a.version hwf
      obtain ⟨vv, vals, heq, hvw, hget, hchar⟩ := ih acc2 hptail hzero2 hwf2
      rw [heq]
      refine ⟨vv, a.value :: vals, rfl, hvw, ?_, ?_⟩
      · intro b hb
        rcases List.mem_cons.mp hb with hcon | hb2
        · cases hcon
          have hvva : vv.get0 a.version.replica_id = a.version.counter := by
            rcases hchar a.version.replica_id with h | ⟨b2, hb2, h2, h3⟩
            · rw [h, hacc2, get0_update_version, if_pos rfl]
              have : acc.get0 a.version.replica_id = 0 := by
                have := hz
                unfold VersionVector.get_version at this
                simpa using this
              rw [this]
              simp
            · exact absurd h2 (hphead (some b2) hb2 a b2 rfl rfl).symm
          unfold VersionVector.get_version
          rw [hvva]
        · exact hget b hb2
      · intro x
        rcases hchar x with h | ⟨b, hb, h2, h3⟩
        · by_cases hx : x = a.version.replica_id
          · subst hx
            refine Or.inr ⟨a, List.mem_cons_self _ _, rfl, ?_⟩
            rw [h, hacc2, get0_update_version, if_pos rfl]
            have hz0 : acc.get0 a.version.replica_id = 0 := by
              have := hz
              unfold VersionVector.get_version at this
              simpa using this
            rw [hz0]
            simp
          · left
            rw [h, hacc2, get0_update_version, if_neg hx]
        · exact Or.inr ⟨b, List.mem_cons_of_mem _ hb, h2, h3⟩

/-! ## Remaining support lemmas for the full visibility-engine spec -/

theorem wfKeys_update (a b : VersionVector) (h : a.wfKeys) : (a.update b).wfKeys := by
  obtain ⟨l⟩ := b
  induction l generalizing a with
  | nil => exact h
  | cons p rest ih =>
    show ((a.update_version ⟨p.1, p.2⟩).update (VersionVector.mk rest)).wfKeys
    exact ih (a.update_version ⟨p.1, p.2⟩) (wfKeys_update_version a ⟨p.1, p.2⟩ h)

theorem fvvStep1_wfKeys (K : VersionSet) (committed : VersionVector) :
    ∀ (l : List ObjectVersion) (vis : VersionVector), vis.wfKeys →
      (fvvStep1 K committed l vis).2.wfKeys := by
  intro l
  induction l with
  | nil => intro vis h; exact h
  | cons ov rest ih =>
    intro vis h
    rw [fvvStep1]
    split
    · cases heq : fvvStep1 K committed rest vis with
      | mk res vis2 =>
        have := ih vis h
        rw [heq] at this
        cases res <;> exact this
    · split
      · exact h
      · split
        · exact h
        · next ts _ =>
          split
          · cases heq : fvvStep1 K committed rest (vis.update ts) with
            | mk res vis2 =>
              have := ih (vis.update ts) (wfKeys_update vis ts h)
              rw [heq] at this
              cases res <;> exact this
          · exact ih vis h

theorem fvvStep1_sublist (K : VersionSet) (committed : VersionVector) :
    ∀ (l : List ObjectVersion) (vis : VersionVector) (out : List ObjectVersion),
      (fvvStep1 K committed l vis).1 = .ok out → out.Sublist l := by
  intro l
  induction l with
  | nil =>
    intro vis out h
    simp only [fvvStep1, Except.ok.injEq] at h
    subst h
    exact List.Sublist.refl []
  | cons ov rest ih =>
    intro vis out h
    rw [fvvStep1] at h
    split at h
    · cases heq : fvvStep1 K committed rest vis with
      | mk res vis2 =>
        rw [heq] at h
        cases res with
        | error e => simp at h
        | ok l2 =>
          simp only [Except.ok.injEq] at h
          subst h
          exact List.Sublist.cons₂ ov (ih vis l2 (by rw [heq]))
    · split at h
      · cases h
      · split at h
        · cases h
        · next ts _ =>
          split at h
          · cases heq : fvvStep1 K committed rest (vis.update ts) with
            | mk res vis2 =>
              rw [heq] at h
              cases res with
              | error e => simp at h
              | ok l2 =>
                simp only [Except.ok.injEq] at h
                subst h
                exact List.Sublist.cons₂ ov (ih (vis.update ts) l2 (by rw [heq]))
          · exact List.Sublist.cons ov (ih vis out h)

theorem fvvSuperInner_ok (ovi : ObjectVersion) :
    ∀ (l : List (Option ObjectVersion)), ovi.timestamp ≠ none →
      (∀ b, some b ∈ l → b.timestamp ≠ none) →
      ∃ p, fvvSuperInner ovi l = .ok p := by
  intro l
  induction l with
  | nil => intro _ _; exact ⟨([], false), rfl⟩
  | cons x rest ih =>
    intro hi hall
    have hall2 : ∀ b, some b ∈ rest → b.timestamp ≠ none :=
      fun b hb => hall b (List.mem_cons_of_mem _ hb)
    cases x with
    | none =>
      obtain ⟨p, hp⟩ := ih hi hall2
      refine ⟨(none :: p.1, p.2), ?_⟩
      simp only [fvvSuperInner]
      rw [hp]
    | some ovj =>
      cases hti : ovi.timestamp with
      | none => exact absurd hti hi
      | some tsi =>
        cases htj : ovj.timestamp with
        | none => exact absurd htj (hall ovj (List.mem_cons_self _ _))
        | some tsj =>
          by_cases h1 : tsi.dominates_version ovj.version = true
          · obtain ⟨p, hp⟩ := ih hi hall2
            refine ⟨(none :: p.1, p.2), ?_⟩
            simp only [fvvSuperInner]
            rw [hti, htj]
            dsimp only
            rw [if_pos h1, hp]
          · by_cases h2 : tsj.dominates_version ovi.version = true
            · refine ⟨(some ovj :: rest, true), ?_⟩
              simp only [fvvSuperInner]
              rw [hti, htj]
              dsimp only
              rw [if_neg h1, if_pos h2]
            · obtain ⟨p, hp⟩ := ih hi hall2
              refine ⟨(some ovj :: p.1, p.2), ?_⟩
              simp only [fvvSuperInner]
              rw [hti, htj]
              dsimp only
              rw [if_neg h1, if_neg h2, hp]

theorem fvvSuperOuterGo_ok : ∀ (fuel : Nat) (l : List (Option ObjectVersion)),
    l.length ≤ fuel → (∀ b, some b ∈ l → b.timestamp ≠ none) →
    ∃ r, fvvSuperOuterGo fuel l = .ok r := by
  intro fuel
  induction fuel with
  | zero =>
    intro l hl _
    cases l with
    | nil => exact ⟨[], rfl⟩
    | cons x rest => simp at hl
  | succ f ih =>
    intro l hl hall
    cases l with
    | nil => exact ⟨[], rfl⟩
    | cons x rest =>
      have hlr : rest.length ≤ f := by simpa using hl
      have hall2 : ∀ b, some b ∈ rest → b.timestamp ≠ none :=
        fun b hb => hall b (List.mem_cons_of_mem _ hb)
      cases x with
      | none =>
        obtain ⟨r, hr⟩ := ih rest hlr hall2
        refine ⟨none :: r, ?_⟩
        simp only [fvvSuperOuterGo]
        rw [hr]
      | some ovi =>
        obtain ⟨p, hp⟩ := fvvSuperInner_ok ovi rest
          (hall ovi (List.mem_cons_self _ _)) hall2
        have hsub : List.Forall₂ aliveSub rest p.1 :=
          fvvSuperInner_sub (show fvvSuperInner ovi rest = .ok (p.1, p.2) from by rw [hp])
        have hallp : ∀ b, some b ∈ p.1 → b.timestamp ≠ none := by
          intro b hb
          obtain ⟨y, hy, hsy⟩ := forall₂_mem_right hsub (some b) hb
          have : y = some b := hsy b rfl
          subst this
          exact hall2 b hy
        have hlen : p.1.length = rest.length := fvvSuperInner_length (by rw [hp])
        obtain ⟨r2, hr2⟩ := ih p.1 (hlen ▸ hlr) hallp
        refine ⟨(if p.2 then none else some ovi) :: r2, ?_⟩
        simp only [fvvSuperOuterGo]
        rw [hp]
        dsimp only
        rw [hr2]

theorem fvvSuperOuter_ok_allPresent (l : List (Option ObjectVersion))
    (h : ∀ b, some b ∈ l → b.timestamp ≠ none) : ∃ r, fvvSuperOuter l = .ok r :=
  fvvSuperOuterGo_ok l.length l (Nat.le_refl _) h

theorem fvvSuperOuter_ok_short (l : List (Option ObjectVersion)) (h : l.length ≤ 1) :
    ∃ r, fvvSuperOuter l = .ok r := by
  cases l with
  | nil => exact ⟨[], rfl⟩
  | cons x rest =>
    cases rest with
    | nil =>
      cases x with
      | none => exact ⟨[none], rfl⟩
      | some ovi => exact ⟨[some ovi], rfl⟩
    | cons y rest2 => simp at h

/-- Any record satisfying the documented timestamp invariants has pairwise
resolvable versions: for two versions of the same replica, the timestamp of
the one with the larger counter dominates the other (timestamps contain
their own version). -/
theorem record_pairwise_resolvable (rec : List ObjectVersion)
    (hts : ∀ ov ∈ rec, ∀ ts, ov.timestamp = some ts →
      ts.dominates_version ov.version = true ∧ ts.wfKeys)
    (hpres : 1 < rec.length → ∀ ov ∈ rec, ov.timestamp ≠ none) :
    rec.Pairwise (fun a b => resolvable (some a) (some b)) := by
  by_cases hlen : 1 < rec.length
  · apply pairwise_of_forall_mem
    intro a ha b hb
    intro a' b' ha' hb' hrep
    have haa : a' = a := by
      injection ha' with h
      exact h.symm
    have hbb : b' = b := by
      injection hb' with h
      exact h.symm
    subst haa
    subst hbb
    cases hta : a'.timestamp with
    | none => exact absurd hta (hpres hlen a' ha)
    | some tsa =>
      cases htb : b'.timestamp with
      | none => exact absurd htb (hpres hlen b' hb)
      | some tsb =>
        rcases Nat.le_total b'.version.counter a'.version.counter with hcle | hcle
        · left
          refine ⟨tsa, rfl, ?_⟩
          rw [dominates_version_iff]
          have h1 := (dominates_version_iff tsa a'.version).mp (hts a' ha tsa hta).1
          rw [← hrep]
          omega
        · right
          refine ⟨tsb, rfl, ?_⟩
          rw [dominates_version_iff]
          have h1 := (dominates_version_iff tsb b'.version).mp (hts b' hb tsb htb).1
          rw [hrep]
          omega
  · cases rec with
    | nil => exact List.Pairwise.nil
    | cons x rest =>
      cases rest with
      | nil =>
        refine List.Pairwise.cons ?_ List.Pairwise.nil
        intro y hy
        cases hy
      | cons z rest2 => exact absurd (by simp) hlen

/-- The full specification of `_filter_visible_versions` under the
documented record and state invariants: it returns normally; `visible` only
widens, stays dominated by `knowledge`, and keeps unique keys; the
dependent vector has unique keys and is dominated by the final visible
vector; and whenever the record holds a version already visible on entry,
the output names at least one surviving version of the record. -/
theorem filter_spec (K : VersionSet) (vis committed : VersionVector) (rec : ObjectRecord)
    (hK : K.dominates_vv vis = true)
    (hvc : vis.dominates committed = true)
    (helide : ∀ ov ∈ rec.versions, ov.timestamp = none →
      committed.dominates_version ov.version = true)
    (hts : ∀ ov ∈ rec.versions, ∀ ts, ov.timestamp = some ts →
      ts.dominates_version ov.version = true ∧ ts.wfKeys)
    (hpres : 1 < rec.versions.length → ∀ ov ∈ rec.versions, ov.timestamp ≠ none) :
    ∃ out vis2, filter_visible_versions K vis committed rec = (.ok out, vis2) ∧
      (∀ x, vis.get0 x ≤ vis2.get0 x) ∧
      (∀ x, vis2.get0 x ≤ max (vis.get0 x) (K.get_gcp.get0 x)) ∧
      (vis.wfKeys → vis2.wfKeys) ∧
      out.vv.wfKeys ∧
      vis2.dominates out.vv = true ∧
      (∀ ov ∈ rec.versions, vis.dominates_version ov.version = true →
        ∃ sv, sv ∈ rec.versions ∧ out.vv.get_version sv.version.replica_id = sv.version ∧
          vis2.dominates_version sv.version = true) := by
  have hvcp : ∀ x, committed.get0 x ≤ vis.get0 x := (dominates_iff vis committed).mp hvc
  obtain ⟨out1, hok1, hmem1, hdom1, hcomp1⟩ :=
    fvvStep1_ok K committed rec.versions vis hvcp helide
      (fun ov ho ts h => (hts ov ho ts h).1)
  cases hstep1 : fvvStep1 K committed rec.versions vis with
  | mk res1 vis2 =>
    rw [hstep1] at hok1 hdom1
    have hres : res1 = .ok out1 := hok1
    subst hres
    have hdom1' : ∀ ov ∈ out1, vis2.dominates_version ov.version = true := hdom1
    have hsub1 : out1.Sublist rec.versions :=
      fvvStep1_sublist K committed rec.versions vis out1 (by rw [hstep1])
    have hpwrec := record_pairwise_resolvable rec.versions hts hpres
    have hpw_out1 : out1.Pairwise (fun a b => resolvable (some a) (some b)) :=
      hpwrec.sublist hsub1
    have houter_ex : ∃ r, fvvSuperOuter (out1.map some) = .ok r := by
      by_cases hlen1 : 1 < rec.versions.length
      · refine fvvSuperOuter_ok_allPresent _ ?_
        intro b hb
        have hbmem : b ∈ out1 := by
          obtain ⟨a, hamem, haeq⟩ := List.mem_map.mp hb
          cases haeq
          exact hamem
        exact hpres hlen1 b (hmem1 b hbmem)
      · refine fvvSuperOuter_ok_short _ ?_
        have h1 : out1.length ≤ rec.versions.length := hsub1.length_le
        rw [List.length_map]
        omega
    obtain ⟨marked, houter⟩ := houter_ex
    have huniq : marked.Pairwise uniqRep :=
      fvvSuperOuter_pairwise _ _ houter (List.pairwise_map.mpr hpw_out1)
    have hsubm := fvvSuperOuter_sub _ _ houter
    have halive_mem : ∀ b, some b ∈ marked → b ∈ out1 := by
      intro b hb
      obtain ⟨x, hx, hsx⟩ := forall₂_mem_right hsubm (some b) hb
      have hxb : x = some b := hsx b rfl
      subst hxb
      obtain ⟨a, hamem, haeq⟩ := List.mem_map.mp hx
      cases haeq
      exact hamem
    obtain ⟨vv, vals, hstep3, hvvwf, hget3, hchar3⟩ :=
      fvvStep3_spec marked ⟨[]⟩ huniq (fun a _ => rfl)
        (by show ([] : List (Nat × Nat)).map _ |>.Nodup; simp)
    refine ⟨⟨vv, vals⟩, vis2, ?_, ?_, ?_, ?_, hvvwf, ?_, ?_⟩
    · unfold filter_visible_versions
      rw [if_neg (by simp [hK]), if_neg (by simp [hvc]), hstep1]
      dsimp only
      rw [houter]
      dsimp only
      rw [hstep3]
    · intro x
      have := fvvStep1_mono K committed rec.versions vis x
      rw [hstep1] at this
      exact this
    · intro x
      have := fvvStep1_bound K committed rec.versions vis
        (fun ov ho ts h => (hts ov ho ts h).2) x
      rw [hstep1] at this
      exact this
    · intro hw
      have := fvvStep1_wfKeys K committed rec.versions vis hw
      rw [hstep1] at this
      exact this
    · rw [dominates_iff]
      intro x
      show vv.get0 x ≤ vis2.get0 x
      rcases hchar3 x with h | ⟨a, ha, hrep, hcnt⟩
      · rw [h]
        exact Nat.zero_le _
      · have hmem := halive_mem a ha
        have hd := (dominates_version_iff vis2 a.version).mp (hdom1' a hmem)
        rw [← hcnt, ← hrep]
        exact hd
    · intro ov hov hdomv
      have hin : ov ∈ out1 := hcomp1 ov hov hdomv
      obtain ⟨b, hbmark⟩ := fvvSuperOuter_alive _ _ houter
        ⟨ov, List.mem_map_of_mem some hin⟩
      have hbmem := halive_mem b hbmark
      exact ⟨b, hmem1 b hbmem, hget3 b hbmark, hdom1' b hbmem⟩

/-! ## The documented per-replica invariant -/

/-- The documented invariants of a stored `ObjectRecord`: an elided
timestamp is recoverable (the version is dominated by `committed_visible`);
a present timestamp dominates its own version and has unique keys; and a
record with more than one version has no elided timestamps. -/
def WFrec (committed : VersionVector) (rec : ObjectRecord) : Prop :=
  (∀ ov ∈ rec.versions, ov.timestamp = none →
    committed.dominates_version ov.version = true) ∧
  (∀ ov ∈ rec.versions, ∀ ts, ov.timestamp = some ts →
    ts.dominates_version ov.version = true ∧ ts.wfKeys) ∧
  (1 < rec.versions.length → ∀ ov ∈ rec.versions, ov.timestamp ≠ none)

/-- The documented cross-field invariant of a replica (specification
section 3), together with the representation facts a Python dict and the
local-contiguity note imply: the three cross-field conjuncts; the
replica's own element of `knowledge` has no extras (its own history is
contiguous); all dictionaries have unique keys; and every stored record
satisfies `WFrec`. -/
def WF (s : Replica) : Prop :=
  s.knowledge.dominates_vv s.visible = true ∧
  s.visible.dominates s.committed_visible = true ∧
  (s.knowledge.get_version s.replica_id).counter = s.visible.get0 s.replica_id ∧
  s.visible.get0 s.replica_id = s.committed_visible.get0 s.replica_id ∧
  (s.knowledge.elem0 s.replica_id).extras = ∅ ∧
  s.knowledge.wfKeys ∧
  s.visible.wfKeys ∧
  s.committed_visible.wfKeys ∧
  ∀ p ∈ s.db, WFrec s.committed_visible p.2

instance (committed : VersionVector) (rec : ObjectRecord) :
    Decidable (WFrec committed rec) := by
  unfold WFrec
  infer_instance

instance (s : Replica) : Decidable (WF s) := by
  unfold WF
  infer_instance

theorem dbGet_mem (db : List (Nat × ObjectRecord)) (key : Nat) (rec : ObjectRecord)
    (h : dbGet db key = some rec) : (key, rec) ∈ db := by
  unfold dbGet at h
  cases hf : db.find? (fun p => p.1 = key) with
  | none => rw [hf] at h; cases h
  | some p =>
    rw [hf] at h
    have hmem := List.mem_of_find?_eq_some hf
    have hkey : p.1 = key := by simpa using List.find?_some hf
    have hrec : p.2 = rec := by simpa using h
    have : p = (key, rec) := Prod.ext hkey hrec
    rwa [this] at hmem

theorem dbPut_mem : ∀ (db : List (Nat × ObjectRecord)) (key : Nat) (rec : ObjectRecord)
    (p : Nat × ObjectRecord), p ∈ dbPut db key rec → p = (key, rec) ∨ p ∈ db := by
  intro db
  induction db with
  | nil =>
    intro key rec p hp
    simp [dbPut] at hp
    left
    simp [hp]
  | cons q rest ih =>
    intro key rec p hp
    obtain ⟨k, x⟩ := q
    by_cases hk : k = key
    · rw [dbPut, if_pos hk] at hp
      rcases List.mem_cons.mp hp with rfl | hp2
      · left
        rw [hk]
      · right
        exact List.mem_cons_of_mem _ hp2
    · rw [dbPut, if_neg hk] at hp
      rcases List.mem_cons.mp hp with rfl | hp2
      · right
        exact List.mem_cons_self _ _
      · rcases ih key rec p hp2 with h3 | h3
        · left
          exact h3
        · right
          exact List.mem_cons_of_mem _ h3

theorem WFrec_mono (c1 c2 : VersionVector) (rec : ObjectRecord)
    (hle : ∀ x, c1.get0 x ≤ c2.get0 x) (h : WFrec c1 rec) : WFrec c2 rec := by
  refine ⟨?_, h.2.1, h.2.2⟩
  intro ov hov hnone
  rw [dominates_version_iff]
  exact Nat.le_trans ((dominates_version_iff c1 ov.version).mp (h.1 ov hov hnone)) (hle _)

theorem get_version_counter_eq_pmOf (S : VersionSet) (r : Nat) :
    (S.get_version r).counter = S.pmOf r := by
  unfold VersionSet.get_version VersionSet.pmOf
  cases S.findElem? r <;> rfl

/-- Keys of `setElemList`: unchanged when the key is present, else the key
is appended. -/
theorem keys_setElemList : ∀ (l : List (Nat × VersionSetElement)) (r : Nat)
    (e : VersionSetElement) (x : Nat),
    x ∈ (VersionSet.setElemList l r e).map (fun p => p.1) →
    x ∈ l.map (fun p => p.1) ∨ x = r := by
  intro l
  induction l with
  | nil =>
    intro r e x hx
    simp [VersionSet.setElemList] at hx
    right
    exact hx
  | cons q rest ih =>
    intro r e x hx
    obtain ⟨k, y⟩ := q
    by_cases hk : k = r
    · rw [VersionSet.setElemList, if_pos hk] at hx
      left
      simpa using hx
    · rw [VersionSet.setElemList, if_neg hk] at hx
      simp only [List.map_cons, List.mem_cons] at hx
      rcases hx with rfl | hx2
      · left
        simp
      · rcases ih r e x hx2 with h3 | h3
        · left
          simp [h3]
        · right
          exact h3

theorem wfKeys_setElem (S : VersionSet) (r : Nat) (e : VersionSetElement)
    (h : S.wfKeys) : (S.setElem r e).wfKeys := by
  obtain ⟨l⟩ := S
  unfold VersionSet.wfKeys at h ⊢
  show ((VersionSet.setElemList l r e).map (fun p => p.1)).Nodup
  induction l with
  | nil => simp [VersionSet.setElemList]
  | cons q rest ih =>
    obtain ⟨k, y⟩ := q
    rw [VersionSet.setElemList]
    by_cases hk : k = r
    · rw [if_pos hk]
      simpa using h
    · rw [if_neg hk]
      simp only [List.map_cons] at h ⊢
      have hsplit := List.nodup_cons.mp h
      refine List.nodup_cons.mpr ⟨?_, ih hsplit.2⟩
      intro hmem
      rcases keys_setElemList rest r e k hmem with h3 | h3
      · exact hsplit.1 h3
      · exact hk h3

theorem insert_succ_empty (c : Nat) :
    (VersionSetElement.mk c ∅).insert (c + 1) = ⟨c + 1, ∅⟩ := by
  unfold VersionSetElement.insert
  dsimp only
  rw [if_neg (by omega), if_pos rfl, Finset.erase_empty]
  unfold mergeExtrasFun
  rw [show (∅ : Finset Nat).card + 1 = 1 from by simp]
  rw [mergeExtrasGo]
  rw [if_neg (by simp)]

/-- Under the self-contiguity invariant, the element for the replica's own
id is exactly the contiguous prefix. -/
theorem elem0_self (S : VersionSet) (r : Nat) (hext : (S.elem0 r).extras = ∅) :
    S.elem0 r = ⟨(S.get_version r).counter, ∅⟩ := by
  unfold VersionSet.elem0 at hext ⊢
  unfold VersionSet.get_version
  cases hfe : S.findElem? r with
  | none => rfl
  | some e =>
    rw [hfe] at hext
    have hext2 : e.extras = ∅ := hext
    show e = ⟨e.prefix_max, ∅⟩
    calc e = ⟨e.prefix_max, e.extras⟩ := rfl
    _ = ⟨e.prefix_max, ∅⟩ := by rw [hext2]

theorem has_version_succ_self_false (S : VersionSet) (r c : Nat)
    (hext : (S.elem0 r).extras = ∅) (hc : c = (S.get_version r).counter) :
    S.has_version ⟨r, c + 1⟩ = false := by
  unfold VersionSet.has_version
  show (match S.findElem? r with
    | none => decide (c + 1 = 0)
    | some e => decide (c + 1 ≤ e.prefix_max) || decide (c + 1 ∈ e.extras)) = false
  cases hfe : S.findElem? r with
  | none => simp
  | some e =>
    have hpm : e.prefix_max = c := by
      unfold VersionSet.get_version at hc
      rw [hfe] at hc
      exact hc.symm
    have hex : e.extras = ∅ := by
      unfold VersionSet.elem0 at hext
      rw [hfe] at hext
      exact hext
    show (decide (c + 1 ≤ e.prefix_max) || decide (c + 1 ∈ e.extras)) = false
    rw [hpm, hex]
    simp

/-- After restoration, every timestamp is present, dominates its own
version, and has unique keys. -/
theorem restored_facts (committed : VersionVector) (l : List ObjectVersion)
    (h1 : ∀ ov ∈ l, ov.timestamp = none → committed.dominates_version ov.version = true)
    (h2 : ∀ ov ∈ l, ∀ ts, ov.timestamp = some ts →
      ts.dominates_version ov.version = true ∧ ts.wfKeys)
    (hcwf : committed.wfKeys) :
    ∀ ov ∈ l.map (fun ov => match ov.timestamp with
      | none => { ov with timestamp := some committed }
      | some _ => ov),
      ov.timestamp ≠ none ∧
      ∀ ts, ov.timestamp = some ts → ts.dominates_version ov.version = true ∧ ts.wfKeys := by
  intro ov hov
  obtain ⟨ov0, hov0, heq⟩ := List.mem_map.mp hov
  cases hts0 : ov0.timestamp with
  | none =>
    rw [hts0] at heq
    replace heq : ({ ov0 with timestamp := some committed } : ObjectVersion) = ov := heq
    subst heq
    refine ⟨by simp, ?_⟩
    intro ts hts
    have hts' : ts = committed := by
      simpa using hts.symm
    subst hts'
    exact ⟨h1 ov0 hov0 hts0, hcwf⟩
  | some ts0 =>
    rw [hts0] at heq
    replace heq : ov0 = ov := heq
    subst heq
    refine ⟨by rw [hts0]; simp, ?_⟩
    intro ts hts
    rw [hts0] at hts
    have hts' : ts0 = ts := by simpa using hts
    subst hts'
    exact h2 ov0 hov0 ts0 hts0

/-- The record written back by `_insert_object` (surviving versions, with
the timestamp opportunistically elided) satisfies the record invariants
with respect to any vector above the elision vector. -/
theorem WFrec_discard (vvv committed4 : VersionVector) (l : List ObjectVersion)
    (hts : ∀ ov ∈ l, ov.timestamp ≠ none ∧ ∀ ts, ov.timestamp = some ts →
      ts.dominates_version ov.version = true ∧ ts.wfKeys)
    (hdom : ∀ x, vvv.get0 x ≤ committed4.get0 x) :
    WFrec committed4 (discard_timestamp_for_replacement_vv ⟨l⟩ vvv) := by
  unfold discard_timestamp_for_replacement_vv
  cases l with
  | nil => exact ⟨by simp, by simp, by simp⟩
  | cons ov rest =>
    cases rest with
    | nil =>
      by_cases hd : vvv.dominates_version ov.version = true
      · rw [show (match (⟨[ov]⟩ : ObjectRecord).versions with
          | [ov] => if vvv.dominates_version ov.version = true
              then (⟨[{ ov with timestamp := none }]⟩ : ObjectRecord)
              else ⟨[ov]⟩
          | _ => (⟨[ov]⟩ : ObjectRecord)) =
            (if vvv.dominates_version ov.version = true
              then (⟨[{ ov with timestamp := none }]⟩ : ObjectRecord) else ⟨[ov]⟩) from rfl]
        rw [if_pos hd]
        refine ⟨?_, ?_, ?_⟩
        · intro o ho _
          have : o = { ov with timestamp := none } := by simpa using ho
          subst this
          show committed4.dominates_version ov.version = true
          rw [dominates_version_iff]
          exact Nat.le_trans ((dominates_version_iff vvv ov.version).mp hd) (hdom _)
        · intro o ho ts hts2
          have : o = { ov with timestamp := none } := by simpa using ho
          subst this
          cases hts2
        · intro hlen
          simp at hlen
      · rw [show (match (⟨[ov]⟩ : ObjectRecord).versions with
          | [ov] => if vvv.dominates_version ov.version = true
              then (⟨[{ ov with timestamp := none }]⟩ : ObjectRecord)
              else ⟨[ov]⟩
          | _ => (⟨[ov]⟩ : ObjectRecord)) =
            (if vvv.dominates_version ov.version = true
              then (⟨[{ ov with timestamp := none }]⟩ : ObjectRecord) else ⟨[ov]⟩) from rfl]
        rw [if_neg hd]
        refine ⟨?_, ?_, ?_⟩
        · intro o ho hnone
          have : o = ov := by simpa using ho
          subst this
          exact absurd hnone (hts o (by simp)).1
        · intro o ho ts hts2
          have : o = ov := by simpa using ho
          subst this
          exact (hts o (by simp)).2 ts hts2
        · intro hlen
          simp at hlen
    | cons ov2 rest2 =>
      refine ⟨?_, ?_, ?_⟩
      · intro o ho hnone
        exact absurd hnone (hts o ho).1
      · intro o ho ts hts2
        exact (hts o ho).2 ts hts2
      · intro _ o ho
        exact (hts o ho).1

/-- `_insert_object` called with the replica's own next version and the
latched timestamp succeeds, and the resulting state satisfies the
invariant, with the new committed vector dominating the timestamp. -/
theorem insert_object_spec (s : Replica) (rec : ObjectRecord) (key : Nat) (value : Option Nat)
    (hWF : WF s) (hrec : WFrec s.committed_visible rec)
    (c : Nat) (hc : c = (s.knowledge.get_version s.replica_id).counter) :
    ∃ s4, s.insert_object rec key
        ⟨⟨s.replica_id, c + 1⟩, some (s.visible.update_version ⟨s.replica_id, c + 1⟩), value⟩ =
          (.ok (), s4) ∧
      WF s4 ∧
      s4.committed_visible.dominates (s.visible.update_version ⟨s.replica_id, c + 1⟩) = true ∧
      s4.replica_id = s.replica_id := by
  obtain ⟨hinv1, hinv2, h3a, h3b, hext, hkwf, hvwf, hcwf, hdb⟩ := hWF
  obtain ⟨hrec1, hrec2, _⟩ := hrec
  have hhv : s.knowledge.has_version ⟨s.replica_id, c + 1⟩ = false :=
    has_version_succ_self_false s.knowledge s.replica_id c hext hc
  have hcvis : s.visible.get0 s.replica_id = c := by
    rw [hc]
    exact h3a.symm
  have hcc : s.committed_visible.get0 s.replica_id = c := by
    rw [← h3b]
    exact hcvis
  have htsnwf : (s.visible.update_version ⟨s.replica_id, c + 1⟩).wfKeys :=
    wfKeys_update_version _ _ hvwf
  have htsn_get : ∀ x, (s.visible.update_version ⟨s.replica_id, c + 1⟩).get0 x =
      if x = s.replica_id then c + 1 else s.visible.get0 x := by
    intro x
    rw [get0_update_version]
    dsimp only
    by_cases hx : x = s.replica_id
    · rw [if_pos hx, if_pos hx, hcvis]
      omega
    · rw [if_neg hx, if_neg hx]
  have helem : s.knowledge.elem0 s.replica_id = ⟨c, ∅⟩ := by
    rw [elem0_self s.knowledge s.replica_id hext, ← hc]
  have hfself : (s.knowledge.insert_version ⟨s.replica_id, c + 1⟩).findElem? s.replica_id =
      some ⟨c + 1, ∅⟩ := by
    unfold VersionSet.insert_version
    dsimp only
    rw [helem, insert_succ_empty, findElem?_setElem_self]
  have hK1wf : (s.knowledge.insert_version ⟨s.replica_id, c + 1⟩).wfKeys := by
    unfold VersionSet.insert_version
    exact wfKeys_setElem _ _ _ hkwf
  have hgcp1 : ∀ x, (s.knowledge.insert_version ⟨s.replica_id, c + 1⟩).get_gcp.get0 x =
      if x = s.replica_id then c + 1 else s.knowledge.get_gcp.get0 x := by
    intro x
    rw [get0_gcp _ hK1wf]
    by_cases hx : x = s.replica_id
    · rw [if_pos hx, hx]
      unfold VersionSet.pmOf
      rw [hfself]
      rfl
    · rw [if_neg hx, get0_gcp _ hkwf]
      unfold VersionSet.pmOf
      have heq : (s.knowledge.insert_version ⟨s.replica_id, c + 1⟩).findElem? x =
          s.knowledge.findElem? x := by
        unfold VersionSet.insert_version
        exact findElem?_setElem_ne _ _ _ x hx
      rw [heq]
  have hKvis : ∀ x, s.visible.get0 x ≤ s.knowledge.get_gcp.get0 x := by
    intro x
    have h : s.knowledge.get_gcp.dominates s.visible = true := hinv1
    exact (dominates_iff _ _).mp h x
  have hdomts : (s.knowledge.insert_version ⟨s.replica_id, c + 1⟩).dominates_vv
      (s.visible.update_version ⟨s.replica_id, c + 1⟩) = true := by
    show (s.knowledge.insert_version ⟨s.replica_id, c + 1⟩).get_gcp.dominates
      (s.visible.update_version ⟨s.replica_id, c + 1⟩) = true
    rw [dominates_iff]
    intro x
    rw [htsn_get x, hgcp1 x]
    by_cases hx : x = s.replica_id
    · rw [if_pos hx, if_pos hx]
    · rw [if_neg hx, if_neg hx]
      exact hKvis x
  have hvis2get : ∀ x,
      (s.visible.update (s.visible.update_version ⟨s.replica_id, c + 1⟩)).get0 x =
      if x = s.replica_id then c + 1 else s.visible.get0 x := by
    intro x
    rw [get0_update _ _ htsnwf, htsn_get x]
    by_cases hx : x = s.replica_id
    · rw [if_pos hx, hx, hcvis]
      omega
    · rw [if_neg hx]
      exact Nat.max_self _
  have hvis2wf : (s.visible.update (s.visible.update_version ⟨s.replica_id, c + 1⟩)).wfKeys :=
    wfKeys_update _ _ hvwf
  have hK1vis2 : (s.knowledge.insert_version ⟨s.replica_id, c + 1⟩).dominates_vv
      (s.visible.update (s.visible.update_version ⟨s.replica_id, c + 1⟩)) = true := by
    show (s.knowledge.insert_version ⟨s.replica_id, c + 1⟩).get_gcp.dominates
      (s.visible.update (s.visible.update_version ⟨s.replica_id, c + 1⟩)) = true
    rw [dominates_iff]
    intro x
    rw [hvis2get x, hgcp1 x]
    by_cases hx : x = s.replica_id
    · rw [if_pos hx, if_pos hx]
    · rw [if_neg hx, if_neg hx]
      exact hKvis x
  have hvis2c : (s.visible.update (s.visible.update_version ⟨s.replica_id, c + 1⟩)).dominates
      s.committed_visible = true := by
    rw [dominates_iff]
    intro x
    rw [hvis2get x]
    by_cases hx : x = s.replica_id
    · rw [if_pos hx, hx, hcc]
      omega
    · rw [if_neg hx]
      exact (dominates_iff _ _).mp hinv2 x
  have hrf := restored_facts s.committed_visible rec.versions hrec1 hrec2 hcwf
  have htsn_dom_ver : (s.visible.update_version ⟨s.replica_id, c + 1⟩).dominates_version
      ⟨s.replica_id, c + 1⟩ = true := by
    rw [dominates_version_iff]
    show c + 1 ≤ (s.visible.update_version ⟨s.replica_id, c + 1⟩).get0 s.replica_id
    rw [htsn_get, if_pos rfl]
  have hall2 : ∀ ov ∈ rec.versions.map (fun ov => match ov.timestamp with
        | none => { ov with timestamp := some s.committed_visible }
        | some _ => ov) ++
      [(⟨⟨s.replica_id, c + 1⟩, some (s.visible.update_version ⟨s.replica_id, c + 1⟩),
        value⟩ : ObjectVersion)],
      ov.timestamp ≠ none ∧
      ∀ ts, ov.timestamp = some ts → ts.dominates_version ov.version = true ∧ ts.wfKeys := by
    intro ov hov
    rcases List.mem_append.mp hov with h1 | h1
    · exact hrf ov h1
    · have heq : ov = ⟨⟨s.replica_id, c + 1⟩,
          some (s.visible.update_version ⟨s.replica_id, c + 1⟩), value⟩ := by
        simpa using h1
      subst heq
      refine ⟨by simp, ?_⟩
      intro ts hts
      have heq2 : s.visible.update_version ⟨s.replica_id, c + 1⟩ = ts := by
        simpa using hts
      subst heq2
      exact ⟨htsn_dom_ver, htsnwf⟩
  have helide2 : ∀ ov ∈ rec.versions.map (fun ov => match ov.timestamp with
        | none => { ov with timestamp := some s.committed_visible }
        | some _ => ov) ++
      [(⟨⟨s.replica_id, c + 1⟩, some (s.visible.update_version ⟨s.replica_id, c + 1⟩),
        value⟩ : ObjectVersion)],
      ov.timestamp = none → s.committed_visible.dominates_version ov.version = true :=
    fun ov hov hnone => absurd hnone (hall2 ov hov).1
  have hts2 : ∀ ov ∈ rec.versions.map (fun ov => match ov.timestamp with
        | none => { ov with timestamp := some s.committed_visible }
        | some _ => ov) ++
      [(⟨⟨s.replica_id, c + 1⟩, some (s.visible.update_version ⟨s.replica_id, c + 1⟩),
        value⟩ : ObjectVersion)],
      ∀ ts, ov.timestamp = some ts → ts.dominates_version ov.version = true ∧ ts.wfKeys :=
    fun ov hov => (hall2 ov hov).2
  obtain ⟨out3, vis3, hfeq, hmono3, hbound3, hwfp3, hvvwf3, hdomvv3, hsurv3⟩ :=
    filter_spec (s.knowledge.insert_version ⟨s.replica_id, c + 1⟩)
      (s.visible.update (s.visible.update_version ⟨s.replica_id, c + 1⟩))
      s.committed_visible
      ⟨rec.versions.map (fun ov => match ov.timestamp with
        | none => { ov with timestamp := some s.committed_visible }
        | some _ => ov) ++
      [(⟨⟨s.replica_id, c + 1⟩, some (s.visible.update_version ⟨s.replica_id, c + 1⟩),
        value⟩ : ObjectVersion)]⟩
      hK1vis2 hvis2c helide2 hts2 (fun _ ov hov => (hall2 ov hov).1)
  have hvis3wf : vis3.wfKeys := hwfp3 hvis2wf
  have hvis3self : vis3.get0 s.replica_id = c + 1 := by
    have h1 := hmono3 s.replica_id
    have h2 := hbound3 s.replica_id
    rw [hvis2get s.replica_id, if_pos rfl] at h1 h2
    rw [hgcp1 s.replica_id, if_pos rfl] at h2
    omega
  have hvis3le : ∀ x, vis3.get0 x ≤
      (s.knowledge.insert_version ⟨s.replica_id, c + 1⟩).get_gcp.get0 x := by
    intro x
    have h2 := hbound3 x
    have h3 : (s.visible.update (s.visible.update_version ⟨s.replica_id, c + 1⟩)).get0 x ≤
        (s.knowledge.insert_version ⟨s.replica_id, c + 1⟩).get_gcp.get0 x := by
      rw [hvis2get x, hgcp1 x]
      by_cases hx : x = s.replica_id
      · rw [if_pos hx, if_pos hx]
      · rw [if_neg hx, if_neg hx]
        exact hKvis x
    omega
  have hvisvis3 : ∀ x, s.visible.get0 x ≤ vis3.get0 x := by
    intro x
    refine Nat.le_trans ?_ (hmono3 x)
    rw [hvis2get x]
    by_cases hx : x = s.replica_id
    · rw [if_pos hx, hx, hcvis]
      omega
    · rw [if_neg hx]
  have hcomvis3 : ∀ x, s.committed_visible.get0 x ≤ vis3.get0 x := by
    intro x
    exact Nat.le_trans ((dominates_iff _ _).mp hinv2 x) (hvisvis3 x)
  have hcom4 : ∀ x, (s.committed_visible.update vis3).get0 x = vis3.get0 x := by
    intro x
    rw [get0_update _ _ hvis3wf]
    exact Nat.max_eq_right (hcomvis3 x)
  have hOBJvis2 : (s.visible.update (s.visible.update_version ⟨s.replica_id, c + 1⟩)).dominates_version
      (⟨s.replica_id, c + 1⟩ : Version) = true := by
    rw [dominates_version_iff]
    show c + 1 ≤ (s.visible.update (s.visible.update_version ⟨s.replica_id, c + 1⟩)).get0
      s.replica_id
    rw [hvis2get, if_pos rfl]
  obtain ⟨sv, hsvmem, hsvget, hsvdom⟩ := hsurv3
    ⟨⟨s.replica_id, c + 1⟩, some (s.visible.update_version ⟨s.replica_id, c + 1⟩), value⟩
    (by simp) hOBJvis2
  have hpredsv : (decide (sv.version = out3.vv.get_version sv.version.replica_id) ||
      ! vis3.dominates_version sv.version) = true := by
    simp [hsvget]
  have hkeptmem : sv ∈ (rec.versions.map (fun (ov : ObjectVersion) => match ov.timestamp with
        | none => { ov with timestamp := some s.committed_visible }
        | some _ => ov) ++
      [(⟨⟨s.replica_id, c + 1⟩, some (s.visible.update_version ⟨s.replica_id, c + 1⟩),
        value⟩ : ObjectVersion)]).filter
      (fun (ov2 : ObjectVersion) => decide (ov2.version = out3.vv.get_version ov2.version.replica_id) ||
        ! vis3.dominates_version ov2.version) :=
    List.mem_filter.mpr ⟨hsvmem, hpredsv⟩
  have hne_of_mem : ∀ (l : List ObjectVersion), sv ∈ l → l.isEmpty = false := by
    intro l hmem
    cases l with
    | nil => simp at hmem
    | cons a t => rfl
  have hkne := hne_of_mem _ hkeptmem
  have hfinrec : WFrec (s.committed_visible.update vis3)
      (discard_timestamp_for_replacement_vv
        ⟨(rec.versions.map (fun (ov : ObjectVersion) => match ov.timestamp with
            | none => { ov with timestamp := some s.committed_visible }
            | some _ => ov) ++
          [(⟨⟨s.replica_id, c + 1⟩, some (s.visible.update_version ⟨s.replica_id, c + 1⟩),
            value⟩ : ObjectVersion)]).filter
          (fun (ov2 : ObjectVersion) => decide (ov2.version = out3.vv.get_version ov2.version.replica_id) ||
            ! vis3.dominates_version ov2.version)⟩ vis3) :=
    WFrec_discard vis3 _ _
      (fun ov hov => hall2 ov (List.mem_of_mem_filter hov))
      (fun x => Nat.le_of_eq (hcom4 x).symm)
  apply Exists.intro
  refine ⟨?_, ?_, ?_, ?_⟩
  · unfold Replica.insert_object
    rw [if_neg (by simp [hhv])]
    dsimp only
    rw [if_pos hdomts]
    dsimp only
    rw [hfeq]
    dsimp only
    rw [if_neg (by rw [hkne]; simp)]
  · unfold WF
    dsimp only
    refine ⟨?_, ?_, ?_, ?_, ?_, ?_, ?_, ?_, ?_⟩
    · show (s.knowledge.insert_version ⟨s.replica_id, c + 1⟩).get_gcp.dominates vis3 = true
      rw [dominates_iff]
      exact hvis3le
    · rw [dominates_iff]
      intro x
      rw [hcom4 x]
    · show ((s.knowledge.insert_version ⟨s.replica_id, c + 1⟩).get_version s.replica_id).counter =
        vis3.get0 s.replica_id
      unfold VersionSet.get_version
      rw [hfself]
      dsimp only
      exact hvis3self.symm
    · rw [hcom4]
    · show ((s.knowledge.insert_version ⟨s.replica_id, c + 1⟩).elem0 s.replica_id).extras = ∅
      unfold VersionSet.elem0
      rw [hfself]
      rfl
    · exact hK1wf
    · exact hvis3wf
    · exact wfKeys_update _ _ hcwf
    · intro p hp
      rcases dbPut_mem s.db key _ p hp with heqp | hp2
      · rw [heqp]
        exact hfinrec
      · exact WFrec_mono s.committed_visible _ _
          (fun x => Nat.le_trans (hcomvis3 x) (Nat.le_of_eq (hcom4 x).symm)) (hdb p hp2)
  · show (s.committed_visible.update vis3).dominates
      (s.visible.update_version ⟨s.replica_id, c + 1⟩) = true
    rw [dominates_iff]
    intro x
    rw [hcom4 x, htsn_get x]
    by_cases hx : x = s.replica_id
    · rw [if_pos hx, hx, hvis3self]
    · rw [if_neg hx]
      exact hvisvis3 x
  · rfl

/-- Under the replica invariant, `_filter_visible_versions` applied to a
stored record succeeds, and the latched state again satisfies the
invariant; the latch does not move the replica's own component. -/
theorem filter_WF (s : Replica) (rec : ObjectRecord) (hWF : WF s)
    (hrec : WFrec s.committed_visible rec) :
    ∃ out vis2,
      filter_visible_versions s.knowledge s.visible s.committed_visible rec = (.ok out, vis2) ∧
      WF { s with visible := vis2 } ∧
      (∀ x, s.visible.get0 x ≤ vis2.get0 x) ∧
      vis2.get0 s.replica_id = s.visible.get0 s.replica_id ∧
      vis2.dominates out.vv = true ∧ out.vv.wfKeys := by
  obtain ⟨hinv1, hinv2, h3a, h3b, hext, hkwf, hvwf, hcwf, hdb⟩ := hWF
  obtain ⟨hrec1, hrec2, hrec3⟩ := hrec
  obtain ⟨out, vis2, hfeq, hmono, hbound, hwfp, hvvwf, hdomvv, hsurv⟩ :=
    filter_spec s.knowledge s.visible s.committed_visible rec hinv1 hinv2 hrec1 hrec2 hrec3
  have hKvis : ∀ x, s.visible.get0 x ≤ s.knowledge.get_gcp.get0 x := by
    intro x
    have h : s.knowledge.get_gcp.dominates s.visible = true := hinv1
    exact (dominates_iff _ _).mp h x
  have hvis2le : ∀ x, vis2.get0 x ≤ s.knowledge.get_gcp.get0 x := by
    intro x
    have h1 := hbound x
    have h2 := hKvis x
    omega
  have hgcpself : s.knowledge.get_gcp.get0 s.replica_id = s.visible.get0 s.replica_id := by
    rw [get0_gcp _ hkwf, ← get_version_counter_eq_pmOf]
    exact h3a
  have hself : vis2.get0 s.replica_id = s.visible.get0 s.replica_id := by
    have h1 := hmono s.replica_id
    have h2 := hbound s.replica_id
    rw [hgcpself] at h2
    omega
  refine ⟨out, vis2, hfeq, ?_, hmono, hself, hdomvv, hvvwf⟩
  unfold WF
  dsimp only
  refine ⟨?_, ?_, ?_, ?_, hext, hkwf, hwfp hvwf, hcwf, hdb⟩
  · show s.knowledge.get_gcp.dominates vis2 = true
    rw [dominates_iff]
    exact hvis2le
  · rw [dominates_iff]
    intro x
    exact Nat.le_trans ((dominates_iff _ _).mp hinv2 x) (hmono x)
  · rw [h3a]
    exact hself.symm
  · rw [hself]
    exact h3b

/-- `_local_update` under the replica invariant: the visibility filter
succeeds; a dependency not dominated by the latched visible vector yields
`ValueError`; a dominated but dict-unequal dependency yields
`ConcurrentUpdateException`; otherwise the update is applied with the
replica's next own version.  Every exit satisfies the invariant. -/
theorem local_update_spec (s : Replica) (rec : ObjectRecord) (key : Nat)
    (value : Option Nat) (dep : VersionVector)
    (hWF : WF s) (hrec : WFrec s.committed_visible rec) :
    ∃ out vis2,
      filter_visible_versions s.knowledge s.visible s.committed_visible rec = (.ok out, vis2) ∧
      (∀ x, s.visible.get0 x ≤ vis2.get0 x) ∧
      WF { s with visible := vis2 } ∧
      (vis2.dominates dep = false →
        s.local_update rec key value dep = (.error .valueError, { s with visible := vis2 })) ∧
      (vis2.dominates dep = true → VersionVector.eqb out.vv dep = false →
        s.local_update rec key value dep =
          (.error .concurrentUpdate, { s with visible := vis2 })) ∧
      (vis2.dominates dep = true → VersionVector.eqb out.vv dep = true →
        ∃ s4, s.local_update rec key value dep =
          (.ok ⟨s.replica_id, s.visible.get0 s.replica_id + 1⟩, s4) ∧
          WF s4 ∧ s4.replica_id = s.replica_id) := by
  have h3a0 : (s.knowledge.get_version s.replica_id).counter = s.visible.get0 s.replica_id :=
    hWF.2.2.1
  obtain ⟨out, vis2, hfeq, hWF1, hmono, hself, hdomvv, hvvwf⟩ := filter_WF s rec hWF hrec
  refine ⟨out, vis2, hfeq, hmono, hWF1, ?_, ?_, ?_⟩
  · intro hdom
    unfold Replica.local_update
    rw [hfeq]
    dsimp only
    rw [if_pos (by rw [hdom]; simp)]
  · intro hdom heqb
    unfold Replica.local_update
    rw [hfeq]
    dsimp only
    rw [if_neg (by rw [hdom]; simp), if_pos (by rw [heqb]; simp)]
  · intro hdom heqb
    have hWF1' := hWF1
    unfold WF at hWF1'
    dsimp only at hWF1'
    obtain ⟨hinv1', hinv2', h3a', h3b', hext', hkwf', hvwf', hcwf', hdb'⟩ := hWF1'
    have hkv : s.knowledge.get_version s.replica_id =
        ⟨s.replica_id, (s.knowledge.get_version s.replica_id).counter⟩ := by
      unfold VersionSet.get_version
      cases hfe : s.knowledge.findElem? s.replica_id <;> rfl
    have ha2 : s.knowledge.get_version s.replica_id = vis2.get_version s.replica_id := by
      rw [hkv]
      show _ = (⟨s.replica_id, vis2.get0 s.replica_id⟩ : Version)
      rw [h3a']
    have ha4 : vis2.get_version s.replica_id = s.committed_visible.get_version s.replica_id := by
      show (⟨s.replica_id, vis2.get0 s.replica_id⟩ : Version) =
        ⟨s.replica_id, s.committed_visible.get0 s.replica_id⟩
      rw [h3b']
    obtain ⟨s4, hins, hWF4, hdomts4, hrid4⟩ :=
      insert_object_spec { s with visible := vis2 } rec key value hWF1 hrec
        ((s.knowledge.get_version s.replica_id).counter) rfl
    dsimp only at hins hdomts4 hrid4
    refine ⟨s4, ?_, hWF4, hrid4⟩
    unfold Replica.local_update
    rw [hfeq]
    dsimp only
    rw [if_neg (by rw [hdom]; simp), if_neg (by rw [heqb]; simp)]
    rw [if_neg (by rw [hinv1']; simp)]
    rw [if_neg (by rw [ha2]; simp)]
    rw [if_neg (by rw [hinv2']; simp)]
    rw [if_neg (by rw [ha4]; simp)]
    rw [hins]
    dsimp only
    rw [if_neg (by rw [hdomts4]; simp)]
    rw [h3a0]

theorem WFrec_nil (committed : VersionVector) : WFrec committed ⟨[]⟩ := by
  refine ⟨?_, ?_, ?_⟩ <;> simp

theorem WF_implies_Inv3 (s : Replica) (h : WF s) : Inv3 s :=
  ⟨h.1, h.2.1, h.2.2.1, h.2.2.2.1⟩

theorem eqb_refl (a : VersionVector) : VersionVector.eqb a a = true := by
  unfold VersionVector.eqb
  rw [List.all_eq_true]
  intro r _
  simp

/-- Every exit of `_local_update` from an invariant state satisfies the
invariant. -/
theorem local_update_WF (s : Replica) (rec : ObjectRecord) (key : Nat)
    (value : Option Nat) (dep : VersionVector)
    (hWF : WF s) (hrec : WFrec s.committed_visible rec) :
    WF (s.local_update rec key value dep).2 := by
  obtain ⟨out, vis2, hfeq, hmono, hWF2, hval, hcon, hok⟩ :=
    local_update_spec s rec key value dep hWF hrec
  cases hdom : vis2.dominates dep with
  | false =>
    rw [hval hdom]
    exact hWF2
  | true =>
    cases heqb : VersionVector.eqb out.vv dep with
    | false =>
      rw [hcon hdom heqb]
      exact hWF2
    | true =>
      obtain ⟨s4, heq, hWF4, _⟩ := hok hdom heqb
      rw [heq]
      exact hWF4

/-- `read` preserves the invariant on every exit. -/
theorem read_WF (s : Replica) (key : Nat) (hWF : WF s) : WF (s.read key).2 := by
  unfold Replica.read
  cases hdbk : dbGet s.db key with
  | none => exact hWF
  | some rec =>
    have hrec : WFrec s.committed_visible rec :=
      hWF.2.2.2.2.2.2.2.2 _ (dbGet_mem s.db key rec hdbk)
    obtain ⟨out, vis2, hfeq, hWF2, hmono, hself, hdomvv, hvvwf⟩ := filter_WF s rec hWF hrec
    dsimp only
    rw [hfeq]
    dsimp only
    split <;> exact hWF2

/-- `update` preserves the invariant on every exit. -/
theorem update_WF (s : Replica) (key value : Nat) (dep : VersionVector) (hWF : WF s) :
    WF (s.update key value dep).2 := by
  unfold Replica.update
  cases hdbk : dbGet s.db key with
  | none => exact hWF
  | some rec =>
    dsimp only
    exact local_update_WF s rec key (some value) dep hWF
      (hWF.2.2.2.2.2.2.2.2 _ (dbGet_mem s.db key rec hdbk))

/-- `delete` preserves the invariant on every exit. -/
theorem delete_WF (s : Replica) (key : Nat) (dep : VersionVector) (hWF : WF s) :
    WF (s.delete key dep).2 := by
  unfold Replica.delete
  cases hdbk : dbGet s.db key with
  | none => exact hWF
  | some rec =>
    dsimp only
    have h := local_update_WF s rec key none dep hWF
      (hWF.2.2.2.2.2.2.2.2 _ (dbGet_mem s.db key rec hdbk))
    cases hlu : s.local_update rec key none dep with
    | mk res s2 =>
      rw [hlu] at h
      cases res <;> exact h

/-- `create` preserves the invariant on every exit. -/
theorem create_WF (s : Replica) (key value : Nat) (hWF : WF s) :
    WF (s.create key value).2 := by
  unfold Replica.create
  cases hdbk : dbGet s.db key with
  | none => exact local_update_WF s ⟨[]⟩ key (some value) ⟨[]⟩ hWF (WFrec_nil _)
  | some rec =>
    have hrec : WFrec s.committed_visible rec :=
      hWF.2.2.2.2.2.2.2.2 _ (dbGet_mem s.db key rec hdbk)
    obtain ⟨out, vis2, hfeq, hWF2, hmono, hself, hdomvv, hvvwf⟩ := filter_WF s rec hWF hrec
    dsimp only
    rw [hfeq]
    dsimp only
    split
    · exact hWF2
    · exact local_update_WF { s with visible := vis2 } rec key (some value) out.vv hWF2 hrec

/-- `request_sync` preserves the invariant. -/
theorem request_sync_WF (s : Replica) (rid cookie : Nat) (hWF : WF s) :
    WF (s.request_sync rid cookie).1 := by
  unfold Replica.request_sync
  split
  · exact hWF
  · exact hWF

/-- C1 amended: the invariant conjuncts hold at entry and exit of the
client-facing Replica methods (`read`, `create`, `update`, `delete`,
`request_sync`), including exits by exception, provided the entry state
satisfies the full replica invariant `WF` (which contains the three
documented conjuncts `Inv3` together with the representation facts they
depend on).  The original claim's quantification over *every* public
method — in particular `deliver_message` — is refuted separately. -/
theorem client_operations_preserve_invariant (s : Replica) (hWF : WF s) :
    (∀ key, WF (s.read key).2 ∧ Inv3 (s.read key).2) ∧
    (∀ key value, WF (s.create key value).2 ∧ Inv3 (s.create key value).2) ∧
    (∀ key value dep, WF (s.update key value dep).2 ∧ Inv3 (s.update key value dep).2) ∧
    (∀ key dep, WF (s.delete key dep).2 ∧ Inv3 (s.delete key dep).2) ∧
    (∀ rid cookie, WF (s.request_sync rid cookie).1 ∧ Inv3 (s.request_sync rid cookie).1) := by
  refine ⟨fun key => ?_, fun key value => ?_, fun key value dep => ?_,
    fun key dep => ?_, fun rid cookie => ?_⟩
  · have h := read_WF s key hWF
    exact ⟨h, WF_implies_Inv3 _ h⟩
  · have h := create_WF s key value hWF
    exact ⟨h, WF_implies_Inv3 _ h⟩
  · have h := update_WF s key value dep hWF
    exact ⟨h, WF_implies_Inv3 _ h⟩
  · have h := delete_WF s key dep hWF
    exact ⟨h, WF_implies_Inv3 _ h⟩
  · have h := request_sync_WF s rid cookie hWF
    exact ⟨h, WF_implies_Inv3 _ h⟩

theorem client_operations_preserve_invariant_witness :
    WF c3State ∧
    ((∀ key, WF (c3State.read key).2 ∧ Inv3 (c3State.read key).2) ∧
     (∀ key value, WF (c3State.create key value).2 ∧ Inv3 (c3State.create key value).2) ∧
     (∀ key value dep, WF (c3State.update key value dep).2 ∧
       Inv3 (c3State.update key value dep).2) ∧
     (∀ key dep, WF (c3State.delete key dep).2 ∧ Inv3 (c3State.delete key dep).2) ∧
     (∀ rid cookie, WF (c3State.request_sync rid cookie).1 ∧
       Inv3 (c3State.request_sync rid cookie).1)) :=
  ⟨by decide, client_operations_preserve_invariant c3State (by decide)⟩

/-- C3 amended: for a local write reaching `_local_update` from an
invariant state: if the latched visible vector does not dominate the
caller's dependency vector, `ValueError` is raised; otherwise, if the
recomputed visible dependent-version vector is not *dict-equal* to the
dependency vector (Python `==` on the underlying maps, distinguishing an
explicit zero entry from an absent one — not set-equality of version
vectors), `ConcurrentUpdateException` is raised; otherwise the replica's
next own version is allocated and returned.  The ValueError check precedes
the ConcurrentUpdate check. -/
theorem local_update_trichotomy (s : Replica) (rec : ObjectRecord) (key : Nat)
    (value : Option Nat) (dep : VersionVector)
    (hWF : WF s) (hrec : WFrec s.committed_visible rec) :
    ∃ out vis2,
      filter_visible_versions s.knowledge s.visible s.committed_visible rec = (.ok out, vis2) ∧
      (vis2.dominates dep = false →
        (s.local_update rec key value dep).1 = .error .valueError) ∧
      (vis2.dominates dep = true → VersionVector.eqb out.vv dep = false →
        (s.local_update rec key value dep).1 = .error .concurrentUpdate) ∧
      (vis2.dominates dep = true → VersionVector.eqb out.vv dep = true →
        (s.local_update rec key value dep).1 =
          .ok ⟨s.replica_id, s.visible.get0 s.replica_id + 1⟩) := by
  obtain ⟨out, vis2, hfeq, hmono, hWF2, hval, hcon, hok⟩ :=
    local_update_spec s rec key value dep hWF hrec
  refine ⟨out, vis2, hfeq, ?_, ?_, ?_⟩
  · intro hdom
    rw [hval hdom]
  · intro hdom heqb
    rw [hcon hdom heqb]
  · intro hdom heqb
    obtain ⟨s4, heq, _, _⟩ := hok hdom heqb
    rw [heq]

theorem local_update_trichotomy_witness :
    WF c3State ∧
    WFrec c3State.committed_visible ⟨[⟨⟨0, 1⟩, some ⟨[(0, 1)]⟩, some 5⟩]⟩ ∧
    (∃ out vis2,
      filter_visible_versions c3State.knowledge c3State.visible c3State.committed_visible
        ⟨[⟨⟨0, 1⟩, some ⟨[(0, 1)]⟩, some 5⟩]⟩ = (.ok out, vis2) ∧
      (vis2.dominates c3Dep = false →
        (c3State.local_update ⟨[⟨⟨0, 1⟩, some ⟨[(0, 1)]⟩, some 5⟩]⟩ 3 (some 7) c3Dep).1 =
          .error .valueError) ∧
      (vis2.dominates c3Dep = true → VersionVector.eqb out.vv c3Dep = false →
        (c3State.local_update ⟨[⟨⟨0, 1⟩, some ⟨[(0, 1)]⟩, some 5⟩]⟩ 3 (some 7) c3Dep).1 =
          .error .concurrentUpdate) ∧
      (vis2.dominates c3Dep = true → VersionVector.eqb out.vv c3Dep = true →
        (c3State.local_update ⟨[⟨⟨0, 1⟩, some ⟨[(0, 1)]⟩, some 5⟩]⟩ 3 (some 7) c3Dep).1 =
          .ok ⟨c3State.replica_id, c3State.visible.get0 c3State.replica_id + 1⟩)) :=
  ⟨by decide, by decide,
   local_update_trichotomy c3State ⟨[⟨⟨0, 1⟩, some ⟨[(0, 1)]⟩, some 5⟩]⟩ 3 (some 7) c3Dep
     (by decide) (by decide)⟩

/-- C9 amended: from an invariant state, `delete(key, dep_vv)` either
returns normally with no value, raises `ValueError`, or raises
`ConcurrentUpdateException` (the latter as `delete`'s own docstring
documents); no other error surfaces to the caller. -/
theorem delete_result_cases (s : Replica) (key : Nat) (dep : VersionVector)
    (hWF : WF s) :
    (s.delete key dep).1 = .ok () ∨
    (s.delete key dep).1 = .error .valueError ∨
    (s.delete key dep).1 = .error .concurrentUpdate := by
  unfold Replica.delete
  cases hdbk : dbGet s.db key with
  | none => exact Or.inl rfl
  | some rec =>
    dsimp only
    have hrec : WFrec s.committed_visible rec :=
      hWF.2.2.2.2.2.2.2.2 _ (dbGet_mem s.db key rec hdbk)
    obtain ⟨out, vis2, hfeq, hmono, hWF2, hval, hcon, hok⟩ :=
      local_update_spec s rec key none dep hWF hrec
    cases hdom : vis2.dominates dep with
    | false =>
      rw [hval hdom]
      exact Or.inr (Or.inl rfl)
    | true =>
      cases heqb : VersionVector.eqb out.vv dep with
      | false =>
        rw [hcon hdom heqb]
        exact Or.inr (Or.inr rfl)
      | true =>
        obtain ⟨s4, heq, _, _⟩ := hok hdom heqb
        rw [heq]
        exact Or.inl rfl

theorem delete_result_cases_witness :
    WF c3State ∧
    ((c3State.delete 3 ⟨[]⟩).1 = .ok () ∨
     (c3State.delete 3 ⟨[]⟩).1 = .error .valueError ∨
     (c3State.delete 3 ⟨[]⟩).1 = .error .concurrentUpdate) :=
  ⟨by decide, delete_result_cases c3State 3 ⟨[]⟩ (by decide)⟩

/-- C4 amended: when the stored record's surviving visible versions are all
tombstones, `read` returns an empty result (hiding the deletions), and the
subsequent `create` never raises `DuplicateKeyException`; and whenever the
visibility filter does not move `visible` (no latching between `create`'s
two filter passes), `create` succeeds, allocating the replica's next own
version seeded with the tombstones' dependency vector.  The original
claim's unconditional success of `create` is refuted separately: latching
between the two passes can shift the dependent set and raise
`ConcurrentUpdateException` instead. -/
theorem read_tombstones_create_no_duplicate (s : Replica) (key : Nat) (value : Nat)
    (rec : ObjectRecord) (out : FilterOut) (vis2 : VersionVector)
    (hWF : WF s) (hdbk : dbGet s.db key = some rec)
    (hfeq : filter_visible_versions s.knowledge s.visible s.committed_visible rec =
      (.ok out, vis2))
    (htomb : out.values.any (fun v => v.isSome) = false) :
    (s.read key).1 = .ok ⟨⟨[]⟩, []⟩ ∧
    (s.create key value).1 ≠ .error .duplicateKey ∧
    (vis2 = s.visible →
      ∃ s4, s.create key value =
        (.ok ⟨s.replica_id, s.visible.get0 s.replica_id + 1⟩, s4)) := by
  have hrec : WFrec s.committed_visible rec :=
    hWF.2.2.2.2.2.2.2.2 _ (dbGet_mem s.db key rec hdbk)
  obtain ⟨out', vis2', hfeq', hWF2, hmono, hself, hdomvv, hvvwf⟩ := filter_WF s rec hWF hrec
  have hpe : ((Except.ok out' : Except Err FilterOut), vis2') = (Except.ok out, vis2) :=
    hfeq'.symm.trans hfeq
  have h1 : out = out' := by
    have := congrArg Prod.fst hpe
    simpa using this.symm
  have h2 : vis2 = vis2' := by
    have := congrArg Prod.snd hpe
    simpa using this.symm
  subst h1
  subst h2
  have hread : s.read key = (.ok ⟨⟨[]⟩, []⟩, { s with visible := vis2 }) := by
    unfold Replica.read
    rw [hdbk]
    dsimp only
    rw [hfeq]
    dsimp only
    rw [if_neg (by rw [htomb]; simp)]
  have hcr : s.create key value =
      ({ s with visible := vis2 }).local_update rec key (some value) out.vv := by
    unfold Replica.create
    rw [hdbk]
    dsimp only
    rw [hfeq]
    dsimp only
    rw [if_neg (by rw [htomb]; simp)]
  refine ⟨by rw [hread], ?_, ?_⟩
  · rw [hcr]
    obtain ⟨out2, vis22, hfeq2, hmono2, hWF22, hval2, hcon2, hok2⟩ :=
      local_update_spec { s with visible := vis2 } rec key (some value) out.vv hWF2 hrec
    cases hdom : vis22.dominates out.vv with
    | false =>
      rw [hval2 hdom]
      simp
    | true =>
      cases heqb : VersionVector.eqb out2.vv out.vv with
      | false =>
        rw [hcon2 hdom heqb]
        simp
      | true =>
        obtain ⟨s4, heq2, _, _⟩ := hok2 hdom heqb
        rw [heq2]
        simp
  · intro hv
    subst hv
    obtain ⟨out2, vis22, hfeq2, hmono2, hWF22, hval2, hcon2, hok2⟩ :=
      local_update_spec s rec key (some value) out.vv hWF hrec
    have hpe2 : ((Except.ok out2 : Except Err FilterOut), vis22) = (Except.ok out, s.visible) :=
      hfeq2.symm.trans hfeq
    have h3 : out = out2 := by
      have := congrArg Prod.fst hpe2
      simpa using this.symm
    have h4 : vis22 = s.visible := by simpa using congrArg Prod.snd hpe2
    subst h3
    subst h4
    obtain ⟨s4, heq, hWF4, hrid⟩ := hok2 hdomvv (eqb_refl _)
    refine ⟨s4, ?_⟩
    rw [hcr]
    exact heq

/-- A replica holding one record for key 7 whose only version is a
tombstone from replica 1, already visible and committed. -/
def c4wState : Replica :=
  ⟨0, [(7, ⟨[⟨⟨1, 1⟩, some ⟨[(1, 1)]⟩, none⟩]⟩)], ⟨[(1, ⟨1, ∅⟩)]⟩,
   ⟨[(1, 1)]⟩, ⟨[(1, 1)]⟩, false, none, 0, none, none⟩

theorem read_tombstones_create_no_duplicate_witness :
    WF c4wState ∧
    dbGet c4wState.db 7 = some ⟨[⟨⟨1, 1⟩, some ⟨[(1, 1)]⟩, none⟩]⟩ ∧
    filter_visible_versions c4wState.knowledge c4wState.visible c4wState.committed_visible
      ⟨[⟨⟨1, 1⟩, some ⟨[(1, 1)]⟩, none⟩]⟩ = (.ok ⟨⟨[(1, 1)]⟩, [none]⟩, ⟨[(1, 1)]⟩) ∧
    (([none] : List (Option Nat)).any (fun v => v.isSome) = false) ∧
    ((c4wState.read 7).1 = .ok ⟨⟨[]⟩, []⟩ ∧
     (c4wState.create 7 99).1 ≠ .error .duplicateKey ∧
     ((⟨[(1, 1)]⟩ : VersionVector) = c4wState.visible →
       ∃ s4, c4wState.create 7 99 =
         (.ok ⟨c4wState.replica_id, c4wState.visible.get0 c4wState.replica_id + 1⟩, s4))) :=
  ⟨by decide, by decide, by decide, by decide,
   read_tombstones_create_no_duplicate c4wState 7 99 ⟨[⟨⟨1, 1⟩, some ⟨[(1, 1)]⟩, none⟩]⟩
     ⟨⟨[(1, 1)]⟩, [none]⟩ ⟨[(1, 1)]⟩ (by decide) (by decide) (by decide) (by decide)⟩
